import Mathlib

/-!
Verification of the N-ary tree library (`ntree.hpp`, `main.cpp`).

The C++ code implements `NLeaf<T, N>`: a node holding a value `T`, a `uint16_t`
depth, a `uint16_t` child index, a `uint16_t` child count and a fixed array of
`N` child pointers.  The program instantiates it as `NLeaf<int, 5>`.

Two complementary shallow embeddings are used:

* an inductive rose tree `Leaf` for the traversal-based operations
  (`Walk`, `Serialize`, `GetMaxChildrenSubtree`, the destructor), where the
  child array is represented by the list of the first `childCount` filled
  slots (the construction discipline keeps slots contiguous), and the
  `uint16_t` fields `mDepth` / `mChildIndex` are carried as `Nat` fields;

* an explicit heap of allocated nodes for the two queue-based builders
  (`GenerateTree` of `main.cpp` and `NLeaf::Deserialize`), which fill child
  slots of already-allocated nodes through pointers-to-slots; node ids are
  allocation order.
-/

/-- Model of `NLeaf<int, N>`: value (`T = int`), the `mDepth` and `mChildIndex`
fields, and the children (the first `mChildrenAmount` slots of `mChildren`,
which the construction discipline keeps contiguous and in slot order).
`mChildrenAmount` is the length of that list. -/
inductive Leaf : Type where
  | mk (value : Int) (depth : Nat) (childIndex : Nat) (children : List Leaf)

namespace Leaf

/-- The `mValue` field. -/
def value : Leaf → Int
  | .mk v _ _ _ => v

/-- The `mDepth` field (a `uint16_t` in the C++, hence always `< 65536` on
trees the program builds; the bound is carried as a hypothesis where used). -/
def depth : Leaf → Nat
  | .mk _ d _ _ => d

/-- The `mChildIndex` field. -/
def childIndex : Leaf → Nat
  | .mk _ _ i _ => i

/-- The attached children, in slot order (`mChildren[0..mChildrenAmount)`). -/
def children : Leaf → List Leaf
  | .mk _ _ _ cs => cs

/-- `GetChildAmount()`: `mChildrenAmount`, the number of attached children. -/
def childAmount (t : Leaf) : Nat := t.children.length

@[simp] theorem value_mk (v d i cs) : (Leaf.mk v d i cs).value = v := rfl
@[simp] theorem depth_mk (v d i cs) : (Leaf.mk v d i cs).depth = d := rfl
@[simp] theorem childIndex_mk (v d i cs) : (Leaf.mk v d i cs).childIndex = i := rfl
@[simp] theorem children_mk (v d i cs) : (Leaf.mk v d i cs).children = cs := rfl

/-- Number of nodes of the subtree rooted at a leaf (the leaf included). -/
def sz : Leaf → Nat
  | .mk _ _ _ cs => 1 + (cs.attach.map fun c => sz c.1).sum
decreasing_by
  have := List.sizeOf_lt_of_mem c.2
  simp only [Leaf.mk.sizeOf_spec]
  omega

/-- Total node count of a forest (a queue of subtrees). -/
def szF (q : List Leaf) : Nat := (q.map sz).sum

theorem sz_def (v d i cs) : sz (.mk v d i cs) = 1 + szF cs := by
  rw [sz, szF, List.attach_map_coe]

theorem sz_eq (t : Leaf) : sz t = 1 + szF t.children := by
  cases t; rw [sz_def]; rfl

@[simp] theorem szF_nil : szF [] = 0 := rfl

@[simp] theorem szF_cons (t : Leaf) (q : List Leaf) :
    szF (t :: q) = sz t + szF q := by
  simp [szF]

@[simp] theorem szF_append (q r : List Leaf) :
    szF (q ++ r) = szF q + szF r := by
  simp [szF]

theorem sz_pos (t : Leaf) : 0 < sz t := by
  rw [sz_eq]; omega

end Leaf

open Leaf

/-- The breadth-first queue traversal of `NLeaf::Walk`, generalized over the
state the C++ callback closes over: the callback receives the state and the
popped leaf and returns the new state together with the `shouldStop` boolean.
One step pops the front leaf, pushes its children onto the queue, then invokes
the callback; `true` stops the whole traversal. -/
def walkAux {σ : Type} (f : σ → Leaf → σ × Bool) : List Leaf → σ → σ
  | [], s => s
  | l :: q, s =>
    let r := f s l
    if r.2 then r.1 else walkAux f (q ++ l.children) r.1
termination_by q => szF q
decreasing_by
  simp only [szF_append, szF_cons]
  have := sz_eq l
  omega

/-- `NLeaf::Walk(walker, includeSelf)`: seeds the queue with the leaf itself
(`includeSelf = true`) or with its children, then runs the queue loop. -/
def walk {σ : Type} (t : Leaf) (f : σ → Leaf → σ × Bool) (includeSelf : Bool)
    (s : σ) : σ :=
  walkAux f (if includeSelf then [t] else t.children) s

@[simp] theorem walkAux_nil {σ : Type} (f : σ → Leaf → σ × Bool) (s : σ) :
    walkAux f [] s = s := by
  rw [walkAux]

theorem walkAux_cons {σ : Type} (f : σ → Leaf → σ × Bool) (l : Leaf)
    (q : List Leaf) (s : σ) :
    walkAux f (l :: q) s =
      if (f s l).2 then (f s l).1 else walkAux f (q ++ l.children) (f s l).1 := by
  rw [walkAux]

/-- Reference breadth-first enumeration of a queue of subtrees: pop the front
leaf, list it, continue with the queue extended by its children.  This is the
visit order of `Walk` when the callback never stops. -/
def bfsL : List Leaf → List Leaf
  | [] => []
  | l :: q => l :: bfsL (q ++ l.children)
termination_by q => szF q
decreasing_by
  simp only [szF_append, szF_cons]
  have := sz_eq l
  omega

@[simp] theorem bfsL_nil : bfsL [] = [] := by rw [bfsL]

theorem bfsL_cons (l : Leaf) (q : List Leaf) :
    bfsL (l :: q) = l :: bfsL (q ++ l.children) := by rw [bfsL]

theorem bfsL_length (q : List Leaf) : (bfsL q).length = szF q := by
  induction q using bfsL.induct with
  | case1 => simp
  | case2 l q ih =>
    rw [bfsL_cons]
    simp only [List.length_cons, ih, szF_append, szF_cons]
    have := sz_eq l
    omega

/-- Structural (depth-first) enumeration of the nodes of a subtree, used as
the specification of "every node of the subtree". -/
def subNodes : Leaf → List Leaf
  | .mk v d i cs => .mk v d i cs :: (cs.attach.map fun c => subNodes c.1).flatten
decreasing_by
  have := List.sizeOf_lt_of_mem c.2
  simp only [Leaf.mk.sizeOf_spec]
  omega

theorem subNodes_def (v d i cs) :
    subNodes (.mk v d i cs) = .mk v d i cs :: (cs.map subNodes).flatten := by
  rw [subNodes, List.attach_map_coe]

theorem subNodes_eq (t : Leaf) :
    subNodes t = t :: (t.children.map subNodes).flatten := by
  cases t; rw [subNodes_def]; rfl

/-- The program's instantiation `NLeaf<int, 5>`: the child-array capacity. -/
def NCap : Nat := 5

/-! ### Breadth-first structure of the queue traversal -/

/-- Rotation lemma: processing a queue `q ++ r` first lists all of `q`, then
continues with `r` followed by all children of `q` — the queue discipline is
level by level. -/
theorem bfsL_rotate (q : List Leaf) :
    ∀ r, bfsL (q ++ r) = q ++ bfsL (r ++ q.flatMap Leaf.children) := by
  induction q with
  | nil => intro r; simp
  | cons l q ih =>
    intro r
    rw [List.cons_append, bfsL_cons, List.append_assoc, ih (r ++ l.children)]
    simp [List.append_assoc]

/-- The queue traversal enumerates level by level: the queue itself, then the
traversal of the queue of all its children. -/
theorem bfsL_levels (q : List Leaf) :
    bfsL q = q ++ bfsL (q.flatMap Leaf.children) := by
  have h := bfsL_rotate q []
  simpa using h

/-- The queue traversal of a queue enumerates exactly the nodes of the
subtrees in the queue (each node exactly once, in some order). -/
theorem bfsL_perm (q : List Leaf) : (bfsL q).Perm (q.flatMap subNodes) := by
  induction q using bfsL.induct with
  | case1 => simp
  | case2 l q ih =>
    rw [bfsL_cons]
    refine ((ih.cons l).trans ?_)
    rw [List.flatMap_cons, subNodes_eq l, List.flatMap_append]
    refine List.Perm.cons l ?_
    have : (l.children.map subNodes).flatten = l.children.flatMap subNodes := by
      rw [List.flatMap_def]
    rw [this]
    exact List.perm_append_comm

/-! ### Emitting callbacks: the common shape of `Serialize` and plain visits -/

/-- A callback that appends `e l` to the output and stops according to `p l`
(this covers `Serialize` and pure visiting; the state is the emitted output,
modelling what has been written to the stream so far). -/
def emitCB {α : Type} (e : Leaf → List α) (p : Leaf → Bool) :
    List α → Leaf → List α × Bool :=
  fun s l => (s ++ e l, p l)

/-- What an emitting traversal produces, as a function of the visit order:
emit `e l` for each leaf until (and including) the first with `p l = true`. -/
def emitUntil {α : Type} (e : Leaf → List α) (p : Leaf → Bool) :
    List Leaf → List α
  | [] => []
  | l :: ls => e l ++ if p l then [] else emitUntil e p ls

@[simp] theorem emitUntil_nil {α : Type} (e : Leaf → List α) (p) :
    emitUntil e p [] = [] := rfl

theorem emitUntil_cons {α : Type} (e : Leaf → List α) (p) (l ls) :
    emitUntil e p (l :: ls) = e l ++ if p l then [] else emitUntil e p ls := rfl

theorem walkAux_emitCB_append {α : Type} (e : Leaf → List α) (p : Leaf → Bool) :
    ∀ q s, walkAux (emitCB e p) q s = s ++ walkAux (emitCB e p) q [] := by
  intro q
  induction q using bfsL.induct with
  | case1 => simp
  | case2 l q ih =>
    intro s
    rw [walkAux_cons, walkAux_cons]
    simp only [emitCB]
    by_cases hp : p l
    · simp [hp]
    · simp only [hp, if_false]
      rw [ih (s ++ e l), ih ([] ++ e l)]
      simp [List.append_assoc]

/-- An emitting traversal emits along the breadth-first visit order, up to and
including the first stopping leaf. -/
theorem walkAux_emitCB_eq {α : Type} (e : Leaf → List α) (p : Leaf → Bool) :
    ∀ q, walkAux (emitCB e p) q [] = emitUntil e p (bfsL q) := by
  intro q
  induction q using bfsL.induct with
  | case1 => simp
  | case2 l q ih =>
    rw [walkAux_cons, bfsL_cons, emitUntil_cons]
    simp only [emitCB, List.nil_append]
    by_cases hp : p l = true
    · simp [hp]
    · rw [if_neg hp, if_neg hp, walkAux_emitCB_append, ih]

/-- If the stop predicate never fires, an emitting traversal emits for every
visited leaf. -/
theorem emitUntil_no_stop {α : Type} (e : Leaf → List α) (p : Leaf → Bool)
    (ls : List Leaf) (h : ∀ l ∈ ls, p l = false) :
    emitUntil e p ls = ls.flatMap e := by
  induction ls with
  | nil => simp
  | cons l ls ih =>
    rw [emitUntil_cons, h l (by simp), if_neg (by simp)]
    rw [ih fun x hx => h x (by simp [hx])]
    simp

/-! ### Claim C6: traversal completeness and order -/

/-- The list of leaves on which `Walk` invokes the callback, in invocation
order (the callback records its argument and never stops). -/
def visited (t : Leaf) (includeSelf : Bool) : List Leaf :=
  walk t (emitCB (fun l => [l]) (fun _ => false)) includeSelf []

theorem visited_eq_bfsL (t : Leaf) (b : Bool) :
    visited t b = bfsL (if b then [t] else t.children) := by
  rw [visited, walk, walkAux_emitCB_eq]
  rw [emitUntil_no_stop _ _ _ (fun _ _ => rfl)]
  simp


/-- Claim C6 — Traversal completeness and order: `Walk` with `includeSelf =
true` and a never-stopping callback invokes the callback exactly once per node
of the subtree (the visit list is a permutation of `subNodes`), in
breadth-first order (the queue enumerates level by level, children in stored
slot order); with `includeSelf = false` the starting node is not visited and
every proper descendant is visited exactly once. -/
theorem walk_traversal_complete (t : Leaf) :
    visited t true = bfsL [t] ∧
    (visited t true).Perm (subNodes t) ∧
    visited t true = t :: visited t false ∧
    (visited t false).Perm ((t.children.map subNodes).flatten) ∧
    (∀ q : List Leaf, bfsL q = q ++ bfsL (q.flatMap Leaf.children)) := by
  have h1 : visited t true = bfsL [t] := by rw [visited_eq_bfsL]; simp
  have hf : visited t false = bfsL t.children := by rw [visited_eq_bfsL]; simp
  have hperm : (bfsL [t]).Perm (subNodes t) := by
    have := bfsL_perm [t]
    simpa using this
  have hflat : (t.children.map subNodes).flatten = t.children.flatMap subNodes := by
    rw [List.flatMap_def]
  refine ⟨h1, h1 ▸ hperm, ?_, ?_, bfsL_levels⟩
  · rw [h1, hf, bfsL_cons]
    simp
  · rw [hf, hflat]
    exact bfsL_perm t.children

/-! ### Claim C5: early stop after the K-th visit -/

/-- The C5 callback: the state counts invocations; the callback returns `true`
exactly on the `K`-th invocation (and `false` before). -/
def kthStopCB (K : Nat) : Nat → Leaf → Nat × Bool :=
  fun c _ => (c + 1, c + 1 == K)

theorem walkAux_kthStop (K : Nat) :
    ∀ q c, c < K → walkAux (kthStopCB K) q c = min K (c + szF q) := by
  intro q
  induction q using bfsL.induct with
  | case1 =>
    intro c hc
    simp [Nat.min_eq_right (Nat.le_of_lt hc)]
  | case2 l q ih =>
    intro c hc
    rw [walkAux_cons]
    simp only [kthStopCB]
    by_cases hK : c + 1 = K
    · rw [if_pos (by simpa using hK)]
      have h2 : K ≤ c + szF (l :: q) := by
        have := sz_pos l
        simp only [szF_cons]
        omega
      rw [Nat.min_eq_left h2]
      exact hK
    · rw [if_neg (by simpa using hK)]
      rw [ih (c + 1) (by omega)]
      have := sz_eq l
      simp only [szF_append, szF_cons]
      congr 1
      omega

/-- Claim C5 — Early stop: a callback that returns `true` on the `K`-th
visited node (and `false` before) is invoked exactly `K` times in total:
the final invocation count is `K`, so no node after the `K`-th (queued
siblings and cousins included) is visited. -/
theorem walk_kth_stop (t : Leaf) (K : Nat) (hK : 1 ≤ K) (hle : K ≤ sz t) :
    walk t (kthStopCB K) true 0 = K := by
  rw [walk, if_pos rfl, walkAux_kthStop K [t] 0 (by omega)]
  have : szF [t] = sz t := by simp
  rw [this, Nat.zero_add, Nat.min_eq_left hle]

/-- A three-node chain used as a concrete input in witnesses. -/
def chainT : Leaf := .mk 10 0 0 [.mk 20 1 0 [.mk 30 2 0 []]]

/-- Witness for C5: on the three-node chain with `K = 2`, the traversal makes
exactly 2 callback invocations. -/
theorem walk_kth_stop_witness :
    1 ≤ 2 ∧ 2 ≤ sz chainT ∧ walk chainT (kthStopCB 2) true 0 = 2 := by
  have hsz : sz chainT = 3 := by norm_num [chainT, sz_def, szF]
  have h2 : 2 ≤ sz chainT := by rw [hsz]; omega
  exact ⟨by omega, h2, walk_kth_stop chainT 2 (by omega) h2⟩


/-! ### Claims C8 / C10: `GetMaxChildrenSubtree` -/

/-- The state update of the `GetMaxChildrenSubtree` callback: the state is
the pair of the two by-reference outputs (`output : int`, `outputHolder :
NLeaf*`, the null pointer modelled as `none`); a leaf whose child amount
(`int amount = leaf->GetChildAmount()`) strictly exceeds the current `output`
overwrites both. -/
def gmcsStep : Int × Option Leaf → Leaf → Int × Option Leaf :=
  fun acc l =>
    if (l.childAmount : Int) > acc.1 then ((l.childAmount : Int), some l) else acc

theorem gmcsStep_eq (acc : Int × Option Leaf) (l : Leaf) :
    gmcsStep acc l =
      if (l.childAmount : Int) > acc.1 then ((l.childAmount : Int), some l)
      else acc := rfl

/-- The callback of `GetMaxChildrenSubtree`: updates the two outputs and
always returns `false` (never stops). -/
def gmcsCB : Int × Option Leaf → Leaf → (Int × Option Leaf) × Bool :=
  fun acc l => (gmcsStep acc l, false)

/-- `NLeaf::GetMaxChildrenSubtree(output, outputHolder)`: walks the subtree
including itself and folds `gmcsCB` over it, starting from the caller-supplied
contents of the two reference parameters. -/
def getMaxChildrenSubtree (t : Leaf) (output : Int) (outputHolder : Option Leaf) :
    Int × Option Leaf :=
  walk t gmcsCB true (output, outputHolder)

/-- A never-stopping stateful callback is a left fold over the visit order. -/
theorem walkAux_noStop_foldl {σ : Type} (g : σ → Leaf → σ) :
    ∀ q s, walkAux (fun s l => (g s l, false)) q s = (bfsL q).foldl g s := by
  intro q
  induction q using bfsL.induct with
  | case1 => simp
  | case2 l q ih =>
    intro s
    rw [walkAux_cons, bfsL_cons]
    simpa using ih (g s l)

/-- Maximum child amount over a list of leaves (`0` for the empty list). -/
def maxAmount (L : List Leaf) : Nat := (L.map childAmount).foldr max 0

@[simp] theorem maxAmount_nil : maxAmount [] = 0 := rfl

theorem maxAmount_cons (l : Leaf) (L : List Leaf) :
    maxAmount (l :: L) = max l.childAmount (maxAmount L) := by
  simp [maxAmount]

theorem le_maxAmount {l : Leaf} {L : List Leaf} (h : l ∈ L) :
    l.childAmount ≤ maxAmount L := by
  induction L with
  | nil => cases h
  | cons x L ih =>
    rw [maxAmount_cons]
    rcases List.mem_cons.mp h with h | h
    · subst h; exact Nat.le_max_left _ _
    · exact le_trans (ih h) (Nat.le_max_right _ _)

/-- The strict-`>` fold keeps the maximum and the FIRST leaf attaining it:
starting from a nonnegative `output` value `o` (as a natural) and any holder,
the fold returns `(o, h)` untouched if no amount exceeds `o`, and otherwise
the maximum together with the first leaf of the list attaining it. -/
theorem foldl_gmcs (L : List Leaf) :
    ∀ (o : Nat) (h : Option Leaf),
      L.foldl gmcsStep ((o : Int), h) =
        if maxAmount L ≤ o then ((o : Int), h)
        else ((maxAmount L : Int),
              L.find? fun l => maxAmount L ≤ l.childAmount) := by
  induction L with
  | nil => intro o h; simp
  | cons l L ih =>
    intro o h
    rw [List.foldl_cons, gmcsStep_eq, maxAmount_cons]
    by_cases hlo : l.childAmount ≤ o
    · rw [if_neg (by push_cast; omega)]
      rw [ih o h]
      by_cases hLo : maxAmount L ≤ o
      · rw [if_pos hLo, if_pos (by rw [max_le_iff]; exact ⟨hlo, hLo⟩)]
      · have hoL : o < maxAmount L := Nat.lt_of_not_le hLo
        have hmax : max l.childAmount (maxAmount L) = maxAmount L :=
          max_eq_right (by omega)
        rw [if_neg hLo, hmax, if_neg hLo,
          List.find?_cons_of_neg _ (by simp only [decide_eq_true_eq]; omega)]
    · have hol : o < l.childAmount := Nat.lt_of_not_le hlo
      rw [if_pos (by push_cast; omega)]
      rw [ih l.childAmount (some l)]
      by_cases hLl : maxAmount L ≤ l.childAmount
      · rw [if_pos hLl, max_eq_left hLl, if_neg (by omega),
          List.find?_cons_of_pos _ (by simp)]
      · have hmax : max l.childAmount (maxAmount L) = maxAmount L :=
          max_eq_right (by omega)
        rw [if_neg hLl, hmax, if_neg (by omega),
          List.find?_cons_of_neg _ (by simp only [decide_eq_true_eq]; omega)]

theorem walkAux_gmcsCB (q : List Leaf) (acc : Int × Option Leaf) :
    walkAux gmcsCB q acc = (bfsL q).foldl gmcsStep acc :=
  walkAux_noStop_foldl gmcsStep q acc

/-- Claim C8 (amended) — `GetMaxChildrenSubtree`, called as the program calls
it (initial `output = 0`, initial holder null): the returned `output` is the
maximum child amount over the breadth-first visit order, and the returned
holder is the FIRST leaf in breadth-first order attaining that maximum —
provided the tree has at least one child (so that the maximum is positive and
the strict `>` comparison fires at least once; a single-node tree leaves the
holder untouched, see the counterexample and claim C10). -/
theorem gmcs_reports_first_max (t : Leaf) (hne : t.children ≠ []) :
    getMaxChildrenSubtree t 0 none =
      ((maxAmount (bfsL [t]) : Int),
        (bfsL [t]).find? fun l => maxAmount (bfsL [t]) ≤ l.childAmount) := by
  rw [getMaxChildrenSubtree, walk, if_pos rfl, walkAux_gmcsCB]
  have h0 : getMaxChildrenSubtree t 0 none = getMaxChildrenSubtree t 0 none := rfl
  have hfold := foldl_gmcs (bfsL [t]) 0 none
  rw [Nat.cast_zero] at hfold
  rw [hfold]
  have hmem : t ∈ bfsL [t] := by
    rw [bfsL_cons]
    exact List.mem_cons_self _ _
  have hpos : 1 ≤ t.childAmount := by
    have : t.children.length ≠ 0 := fun hlen => hne (List.eq_nil_of_length_eq_zero hlen)
    unfold Leaf.childAmount
    omega
  have : ¬ maxAmount (bfsL [t]) ≤ 0 := by
    have := le_maxAmount hmem
    omega
  rw [if_neg this]

/-- Counterexample to claim C8 as stated: on a single-node tree (with the
program's initial values `output = 0`, holder null), the strict `>` never
fires (`0 > 0` is false), so the returned holder stays null — it is NOT the
first breadth-first node attaining the maximum child count (which is the root
itself). -/
theorem gmcs_single_node_counterexample :
    getMaxChildrenSubtree (.mk 7 0 0 []) 0 none = (0, none) ∧
    ((bfsL [Leaf.mk 7 0 0 []]).find?
        (fun l => maxAmount (bfsL [Leaf.mk 7 0 0 []]) ≤ l.childAmount)) =
      some (.mk 7 0 0 []) ∧
    (none : Option Leaf) ≠ some (.mk 7 0 0 []) := by
  have hb : bfsL [Leaf.mk 7 0 0 []] = [Leaf.mk 7 0 0 []] := by
    rw [bfsL_cons]
    simp
  refine ⟨?_, ?_, by simp⟩
  · rw [getMaxChildrenSubtree, walk, if_pos rfl, walkAux_gmcsCB, hb]
    rfl
  · rw [hb]
    rfl

/-- The tree whose breadth-first child-count sequence starts `[3, 5, 5, 2]`:
root with three children having 5, 5 and 2 children respectively (all
grandchildren are leaves). -/
def maxA : Leaf :=
  .mk 2 1 0 [.mk 20 2 0 [], .mk 21 2 1 [], .mk 22 2 2 [], .mk 23 2 3 [], .mk 24 2 4 []]

def maxB : Leaf :=
  .mk 3 1 1 [.mk 30 2 0 [], .mk 31 2 1 [], .mk 32 2 2 [], .mk 33 2 3 [], .mk 34 2 4 []]

def maxC : Leaf := .mk 4 1 2 [.mk 40 2 0 [], .mk 41 2 1 []]

def maxT : Leaf := .mk 1 0 0 [maxA, maxB, maxC]

/-- Witness for C8 (amended), exercising the spec's `[3, 5, 5, 2]` example:
the search returns maximum 5 and the SECOND breadth-first node (`maxA`, the
first of the two that attain 5). -/
theorem gmcs_reports_first_max_witness :
    maxT.children ≠ [] ∧ getMaxChildrenSubtree maxT 0 none = (5, some maxA) := by
  have hne : maxT.children ≠ [] := by simp [maxT]
  have hb : bfsL [maxT] =
      [maxT, maxA, maxB, maxC,
       .mk 20 2 0 [], .mk 21 2 1 [], .mk 22 2 2 [], .mk 23 2 3 [], .mk 24 2 4 [],
       .mk 30 2 0 [], .mk 31 2 1 [], .mk 32 2 2 [], .mk 33 2 3 [], .mk 34 2 4 [],
       .mk 40 2 0 [], .mk 41 2 1 []] := by
    simp [maxT, maxA, maxB, maxC, bfsL_cons]
  refine ⟨hne, ?_⟩
  rw [gmcs_reports_first_max maxT hne, hb]
  rfl

/-- Claim C10 — `GetMaxChildrenSubtree` never writes its output parameters
when no node's child count strictly exceeds the caller-supplied initial
`output`: both reference parameters keep their initial contents. -/
theorem gmcs_no_write (t : Leaf) (o : Int) (h : Option Leaf)
    (hle : ∀ l ∈ subNodes t, (l.childAmount : Int) ≤ o) :
    getMaxChildrenSubtree t o h = (o, h) := by
  rw [getMaxChildrenSubtree, walk, if_pos rfl, walkAux_gmcsCB]
  have hmem : ∀ l ∈ bfsL [t], (l.childAmount : Int) ≤ o := by
    intro l hl
    refine hle l ?_
    have := (bfsL_perm [t]).mem_iff.mp hl
    simpa using this
  clear hle
  generalize bfsL [t] = L at hmem
  induction L with
  | nil => simp
  | cons l L ih =>
    rw [List.foldl_cons, gmcsStep_eq, if_neg (by
      have := hmem l (List.mem_cons_self _ _)
      omega)]
    exact ih fun x hx => hmem x (List.mem_cons_of_mem _ hx)

/-- Witness for C10: a single-node tree (child count 0) with initial output
`0` and null holder: the outputs are left untouched (the holder stays null
rather than being set to the root). -/
theorem gmcs_no_write_witness :
    (∀ l ∈ subNodes (Leaf.mk 9 0 0 []), (l.childAmount : Int) ≤ 0) ∧
    getMaxChildrenSubtree (.mk 9 0 0 []) 0 none = (0, none) := by
  have hyp : ∀ l ∈ subNodes (Leaf.mk 9 0 0 []), (l.childAmount : Int) ≤ 0 := by
    rw [subNodes_def]
    intro l hl
    simp at hl
    subst hl
    simp [Leaf.childAmount]
  exact ⟨hyp, gmcs_no_write _ 0 none hyp⟩

/-! ### `NLeaf::Serialize` -/

/-- The record payload one visited leaf writes to the stream:
`stream << mChildrenAmount << ":" << mValue << std::endl` (the stream is
modelled as the list of its lines, `std::endl` being the separator). -/
def recordLine (l : Leaf) : String :=
  toString l.childAmount ++ ":" ++ toString l.value

/-- The pretty-mode prefix: `min(mDepth, 32) + mChildIndex` tab characters,
then the depth and `": "`. -/
def prettyPrefix (l : Leaf) : String :=
  String.mk (List.replicate (min l.depth 32 + l.childIndex) '\t') ++
    toString l.depth ++ ": "

/-- The stop test of `Serialize`: the C++ guard is
`skipDeep != -1 && leaf->mDepth > skipDeep`.  Both operands promote to `int`,
and `skipDeep` (a `uint16_t`, hence in `[0, 65535]`) is never `-1` as an
`int`, so the first conjunct is always true and the guard is exactly
`mDepth > skipDeep`.  The "unbounded" default `skipDeep = (uint16_t)-1 =
65535` never fires only because `mDepth`, also a `uint16_t`, cannot exceed
65535. -/
def serStop (skipDeep : Nat) (l : Leaf) : Bool := skipDeep < l.depth

/-- The lines one visited leaf contributes: its record (with the pretty
prefix when enabled), then the `...` marker if the stop test fires. -/
def serEmit (skipDeep : Nat) (pretty : Bool) (l : Leaf) : List String :=
  ((if pretty then prettyPrefix l else "") ++ recordLine l) ::
    (if serStop skipDeep l then ["..."] else [])

/-- `NLeaf::Serialize(stream, skipDeep, pretty)`: a `Walk` including self
whose callback emits the leaf's line(s) and stops once the depth limit is
exceeded.  The result is the list of lines written to the stream. -/
def serialize (t : Leaf) (skipDeep : Nat) (pretty : Bool) : List String :=
  walk t (emitCB (serEmit skipDeep pretty) (serStop skipDeep)) true []

/-- The `uint16_t` value of the defaulted `skipDeep = -1` argument. -/
def unboundedDepth : Nat := 65535

theorem serialize_eq (t : Leaf) (skipDeep : Nat) (pretty : Bool) :
    serialize t skipDeep pretty =
      emitUntil (serEmit skipDeep pretty) (serStop skipDeep) (bfsL [t]) := by
  rw [serialize, walk, if_pos rfl, walkAux_emitCB_eq]

/-! ### Depth bookkeeping for the serializer claims -/

/-- Check that every `mDepth` field of the subtree records the true distance
from the root (the leaf itself being at distance `k`), as `SetNChild`
establishes during top-down construction. -/
def depthOkB : Leaf → Nat → Bool
  | .mk _ d _ cs, k => d == k && cs.attach.all fun c => depthOkB c.1 (k + 1)
decreasing_by
  have := List.sizeOf_lt_of_mem c.2
  simp only [Leaf.mk.sizeOf_spec]
  omega

theorem depthOkB_mk (v d i cs k) :
    depthOkB (.mk v d i cs) k =
      (d == k && cs.all fun c => depthOkB c (k + 1)) := by
  rw [depthOkB]
  congr 1
  rw [Bool.eq_iff_iff]
  simp [List.all_eq_true]

theorem depthOkB_iff (t : Leaf) (k : Nat) :
    depthOkB t k = true ↔
      t.depth = k ∧ ∀ c ∈ t.children, depthOkB c (k + 1) = true := by
  cases t with
  | mk v d i cs =>
    rw [depthOkB_mk]
    simp [List.all_eq_true]

/-- The `k`-th breadth-first level below a queue of subtrees. -/
def lvlQ (q : List Leaf) : Nat → List Leaf
  | 0 => q
  | k + 1 => lvlQ (q.flatMap Leaf.children) k

@[simp] theorem lvlQ_zero (q : List Leaf) : lvlQ q 0 = q := rfl

theorem lvlQ_succ (q : List Leaf) (k : Nat) :
    lvlQ q (k + 1) = lvlQ (q.flatMap Leaf.children) k := rfl

theorem lvlQ_succ_out : ∀ (k : Nat) (q : List Leaf),
    lvlQ q (k + 1) = (lvlQ q k).flatMap Leaf.children := by
  intro k
  induction k with
  | zero => intro q; rfl
  | succ k ih => intro q; rw [lvlQ_succ, ih, lvlQ_succ]

/-- Queue-based breadth-first traversal splits into the first `k` levels
followed by the traversal of level `k`. -/
theorem bfsL_lvl_decomp (k : Nat) : ∀ q,
    bfsL q = ((List.range k).map (lvlQ q)).flatten ++ bfsL (lvlQ q k) := by
  induction k with
  | zero => intro q; simp
  | succ k ih =>
    intro q
    rw [bfsL_levels q, ih (q.flatMap Leaf.children), List.range_succ_eq_map]
    have hfun : (lvlQ q ∘ Nat.succ) = lvlQ (q.flatMap Leaf.children) := by
      funext j
      rfl
    simp only [List.map_cons, List.map_map, hfun, lvlQ_zero,
      List.flatten_cons, List.append_assoc, lvlQ_succ]

theorem lvlQ_empty_mono {q : List Leaf} {k : Nat} (h : lvlQ q k = []) :
    ∀ j, k ≤ j → lvlQ q j = [] := by
  intro j hj
  induction j with
  | zero =>
    have : k = 0 := Nat.le_zero.mp hj
    exact this ▸ h
  | succ j ih =>
    rcases Nat.lt_or_ge k (j + 1) with hk | hk
    · have hj2 : lvlQ q j = [] := ih (by omega)
      rw [lvlQ_succ_out, hj2]
      rfl
    · have : k = j + 1 := by omega
      exact this ▸ h

theorem szF_flatMap_children (q : List Leaf) :
    szF q = szF (q.flatMap Leaf.children) + q.length := by
  induction q with
  | nil => simp
  | cons l q ih =>
    rw [List.flatMap_cons]
    simp only [szF_cons, szF_append, List.length_cons]
    have := sz_eq l
    omega

theorem exists_lvlQ_empty (q : List Leaf) : ∃ K, lvlQ q K = [] := by
  generalize hn : szF q = n
  induction n using Nat.strong_induction_on generalizing q with
  | _ n ih =>
    cases q with
    | nil => exact ⟨0, rfl⟩
    | cons l q =>
      have hlt : szF ((l :: q).flatMap Leaf.children) < n := by
        have := szF_flatMap_children (l :: q)
        simp only [List.length_cons] at this
        omega
      obtain ⟨K, hK⟩ := ih _ hlt _ rfl
      exact ⟨K + 1, by rw [lvlQ_succ]; exact hK⟩

/-- Depth fields along the levels: if every root of `q` has correct depth
fields starting at `n`, every element of level `k` has correct depth fields
starting at `n + k` (in particular its own depth field is `n + k`). -/
theorem lvlQ_depthOk : ∀ (k : Nat) (q : List Leaf) (n : Nat),
    (∀ l ∈ q, depthOkB l n = true) →
      ∀ x ∈ lvlQ q k, depthOkB x (n + k) = true := by
  intro k
  induction k with
  | zero => intro q n h x hx; simpa using h x hx
  | succ k ih =>
    intro q n h x hx
    rw [lvlQ_succ] at hx
    have hch : ∀ l ∈ q.flatMap Leaf.children, depthOkB l (n + 1) = true := by
      intro c hc
      rw [List.mem_flatMap] at hc
      obtain ⟨p, hp, hcp⟩ := hc
      exact ((depthOkB_iff p n).mp (h p hp)).2 c hcp
    have := ih _ _ hch x hx
    have harith : n + 1 + k = n + (k + 1) := by omega
    rw [harith] at this
    exact this

/-- In a subtree whose depth fields are correct starting at `k`, every node's
depth field is at least `k`. -/
theorem subNodes_depth_ge (t : Leaf) : ∀ (k : Nat), depthOkB t k = true →
    ∀ y ∈ subNodes t, k ≤ y.depth := by
  induction t using subNodes.induct with
  | _ v d i cs ih =>
    intro k hok y hy
    rw [subNodes_def] at hy
    rcases List.mem_cons.mp hy with hy | hy
    · subst hy
      have := ((depthOkB_iff _ k).mp hok).1
      simp [this]
    · rw [List.mem_flatten] at hy
      obtain ⟨L, hL, hyL⟩ := hy
      rw [List.mem_map] at hL
      obtain ⟨c, hc, hLc⟩ := hL
      have hcok : depthOkB c (k + 1) = true :=
        ((depthOkB_iff _ k).mp hok).2 c (by simpa using hc)
      have := ih ⟨c, hc⟩ (k + 1) hcok y (hLc ▸ hyL)
      omega

/-- Splitting an emitting traversal at the first stopping leaf. -/
theorem emitUntil_split {α : Type} (e : Leaf → List α) (p : Leaf → Bool)
    (A : List Leaf) (w : Leaf) (B : List Leaf)
    (hA : ∀ a ∈ A, p a = false) (hw : p w = true) :
    emitUntil e p (A ++ w :: B) = A.flatMap e ++ e w := by
  induction A with
  | nil => simp [emitUntil_cons, hw]
  | cons a A ih =>
    rw [List.cons_append, emitUntil_cons, hA a (by simp),
      if_neg (by simp), List.flatMap_cons,
      ih fun x hx => hA x (by simp [hx])]
    simp

theorem flatMap_single_eq_map {α : Type} (f : Leaf → α) (g : Leaf → List α)
    (A : List Leaf) (h : ∀ l ∈ A, g l = [f l]) : A.flatMap g = A.map f := by
  induction A with
  | nil => simp
  | cons a A ih =>
    rw [List.flatMap_cons, h a (by simp), ih fun x hx => h x (by simp [hx]),
      List.map_cons]
    rfl

/-- Claim C2 (amended) — `Serialize` with `skipDeep = 1` (pretty disabled) on
a tree of depth ≥ 2 with correct depth fields emits the records of all nodes
of depth 0 and 1, then the record of the FIRST breadth-first node of depth 2,
then exactly one `...` marker line, and stops: the record line is written
before the depth check, so exactly one depth-2 record does appear — contrary
to the claim as stated — and nothing deeper. -/
theorem serialize_depth_limit_one (t : Leaf)
    (hok : depthOkB t 0 = true)
    (hdeep : ∃ x ∈ subNodes t, 2 ≤ x.depth) :
    ∃ w : Leaf,
      serialize t 1 false =
        (t :: t.children).map recordLine ++ [recordLine w, "..."] ∧
      w.depth = 2 ∧
      (∀ l ∈ subNodes t, l.depth ≤ 1 → l ∈ t :: t.children) ∧
      (∀ l ∈ t :: t.children, l.depth ≤ 1) := by
  have hbase : ∀ l ∈ [t], depthOkB l 0 = true := by simpa using hok
  have htd : t.depth = 0 := ((depthOkB_iff t 0).mp hok).1
  have hchd : ∀ c ∈ t.children, c.depth = 1 := fun c hc =>
    ((depthOkB_iff c 1).mp (((depthOkB_iff t 0).mp hok).2 c hc)).1
  have hlvl1 : lvlQ [t] 1 = t.children := by
    rw [lvlQ_succ]
    simp
  have hlvl2ok : ∀ x ∈ lvlQ [t] 2, depthOkB x 2 = true := by
    have := lvlQ_depthOk 2 [t] 0 hbase
    simpa using this
  -- level 2 is nonempty: some node has depth ≥ 2
  obtain ⟨x, hx, hxd⟩ := hdeep
  have hxmem : x ∈ bfsL [t] := by
    rw [(bfsL_perm [t]).mem_iff]
    simpa using hx
  obtain ⟨K, hK⟩ := exists_lvlQ_empty [t]
  have hdecomp := bfsL_lvl_decomp K [t]
  rw [hK, bfsL_nil, List.append_nil] at hdecomp
  rw [hdecomp, List.mem_flatten] at hxmem
  obtain ⟨L, hL, hxL⟩ := hxmem
  rw [List.mem_map] at hL
  obtain ⟨j, hjK, hLj⟩ := hL
  subst hLj
  have hxok : depthOkB x j = true := by
    have := lvlQ_depthOk j [t] 0 hbase x hxL
    simpa using this
  have hxj : x.depth = j := ((depthOkB_iff x j).mp hxok).1
  have hj2 : 2 ≤ j := by omega
  have hlvl2ne : lvlQ [t] 2 ≠ [] := by
    intro h2
    rw [lvlQ_empty_mono h2 j hj2] at hxL
    exact absurd hxL (List.not_mem_nil x)
  obtain ⟨w, rest, hw⟩ : ∃ w rest, lvlQ [t] 2 = w :: rest := by
    cases hcase : lvlQ [t] 2 with
    | nil => exact absurd hcase hlvl2ne
    | cons w rest => exact ⟨w, rest, rfl⟩
  have hwdepth : w.depth = 2 := by
    have := hlvl2ok w (by rw [hw]; exact List.mem_cons_self _ _)
    exact ((depthOkB_iff w 2).mp this).1
  have hflat : ((List.range 2).map (lvlQ [t])).flatten = t :: t.children := by
    have h2 : List.range 2 = [0, 1] := rfl
    rw [h2]
    simp [hlvl1]
  have hsplit : bfsL [t] = (t :: t.children) ++ bfsL (lvlQ [t] 2) := by
    rw [bfsL_lvl_decomp 2 [t], hflat]
  have hAstop : ∀ a ∈ t :: t.children, serStop 1 a = false := by
    intro a ha
    rcases List.mem_cons.mp ha with ha | ha
    · subst ha
      simp [serStop, htd]
    · simp [serStop, hchd a ha]
  have hwstop : serStop 1 w = true := by simp [serStop, hwdepth]
  have hAemit : ∀ l ∈ t :: t.children, serEmit 1 false l = [recordLine l] := by
    intro l hl
    simp [serEmit, hAstop l hl]
  refine ⟨w, ?_, hwdepth, ?_, ?_⟩
  · rw [serialize_eq, hsplit, hw, bfsL_cons,
      emitUntil_split _ _ _ w _ hAstop hwstop,
      flatMap_single_eq_map recordLine _ _ hAemit]
    simp [serEmit, hwstop]
  · intro l hl hld
    have hlb : l ∈ bfsL [t] := by
      rw [(bfsL_perm [t]).mem_iff]
      simpa using hl
    rw [hsplit] at hlb
    rcases List.mem_append.mp hlb with hlb | hlb
    · exact hlb
    · exfalso
      rw [(bfsL_perm _).mem_iff, List.mem_flatMap] at hlb
      obtain ⟨c, hc, hlc⟩ := hlb
      have := subNodes_depth_ge c 2 (hlvl2ok c hc) l hlc
      omega
  · intro l hl
    rcases List.mem_cons.mp hl with hl | hl
    · subst hl
      omega
    · rw [hchd l hl]

/-- Counterexample to claim C2 as stated: on the three-node chain (values
10, 20, 30 at depths 0, 1, 2), `Serialize` with `skipDeep = 1` writes the
record `0:30` of the depth-2 node — the record line is emitted before the
depth check — and only then the `...` marker.  The claim asserts the output
holds records of depth-0/1 nodes only plus `...`, but the third line `0:30`
is neither a record of a node of depth ≤ 1 (those are `1:10` and `1:20`) nor
the marker. -/
theorem serialize_depth_limit_counterexample :
    serialize chainT 1 false = ["1:10", "1:20", "0:30", "..."] ∧
    "0:30" ∉ ["1:10", "1:20"] ∧ ("0:30" : String) ≠ "..." := by
  have hb : bfsL [chainT] =
      [chainT, .mk 20 1 0 [.mk 30 2 0 []], .mk 30 2 0 []] := by
    simp [chainT, bfsL_cons]
  refine ⟨?_, by decide, by decide⟩
  rw [serialize_eq, hb]
  rfl

/-- Witness for C2 (amended), on the three-node chain. -/
theorem serialize_depth_limit_one_witness :
    depthOkB chainT 0 = true ∧
    (∃ x ∈ subNodes chainT, 2 ≤ x.depth) ∧
    (∃ w : Leaf,
      serialize chainT 1 false =
        (chainT :: chainT.children).map recordLine ++ [recordLine w, "..."] ∧
      w.depth = 2 ∧
      (∀ l ∈ subNodes chainT, l.depth ≤ 1 → l ∈ chainT :: chainT.children) ∧
      (∀ l ∈ chainT :: chainT.children, l.depth ≤ 1)) := by
  have h1 : depthOkB chainT 0 = true := by
    simp [chainT, depthOkB_mk]
  have h2 : ∃ x ∈ subNodes chainT, 2 ≤ x.depth := by
    refine ⟨.mk 30 2 0 [], ?_, by simp⟩
    simp [chainT, subNodes_def]
  exact ⟨h1, h2, serialize_depth_limit_one chainT h1 h2⟩

/-! ### Claim C4: the destructor -/

/-- The release trace of the destructor's queue loop, under a "frozen heap"
reading of the C++ (reads of freed nodes still see the old field values; in
real C++ the second release of a node is already undefined behavior).
`~NLeaf` runs `Walk(delete, includeSelf = false)`; one loop step pops leaf
`c`, pushes `c`'s children onto the queue, and then executes the callback
`delete c` — which first runs `c`'s own destructor (releasing `c`'s subtree,
`walkDel c.children`) and then frees `c` itself — before continuing with the
queue, which still holds `c`'s children. -/
def walkDel : List Leaf → List Leaf
  | [] => []
  | c :: q => walkDel c.children ++ [c] ++ walkDel (q ++ c.children)
termination_by q => szF q
decreasing_by
  all_goals simp only [szF_append, szF_cons, sz_eq]; omega

/-- The sequence of nodes `~NLeaf` releases when a leaf is destroyed (the
leaf itself excluded, as `Walk` is called with `includeSelf = false`). -/
def dtorTrace (t : Leaf) : List Leaf := walkDel t.children

@[simp] theorem walkDel_nil : walkDel [] = [] := by rw [walkDel]

theorem walkDel_cons (c : Leaf) (q : List Leaf) :
    walkDel (c :: q) = walkDel c.children ++ [c] ++ walkDel (q ++ c.children) := by
  rw [walkDel]

/-- Claim C4 is violated by the code: destroying the root of the three-node
chain 10 → 20 → 30 releases the grandchild (value 30) twice — once through
the recursive destructor of the child (value 20) and once again by the outer
queue loop, which had already enqueued the grandchild before deleting the
child.  The trace is `[30, 20, 30]` (a double free, undefined behavior in the
C++), not a release of each of the two descendants exactly once. -/
theorem dtor_double_release :
    dtorTrace chainT =
      [.mk 30 2 0 [], .mk 20 1 0 [.mk 30 2 0 []], .mk 30 2 0 []] ∧
    ¬ (dtorTrace chainT).Nodup := by
  have h : dtorTrace chainT =
      [.mk 30 2 0 [], .mk 20 1 0 [.mk 30 2 0 []], .mk 30 2 0 []] := by
    simp [dtorTrace, chainT, walkDel_cons]
  refine ⟨h, ?_⟩
  rw [h]
  intro hnd
  exact (List.nodup_cons.mp hnd).1
    (List.mem_cons_of_mem _ (List.mem_cons_self _ _))

/-! ### The heap model for the two queue-based builders

`GenerateTree` (main.cpp) and `NLeaf::Deserialize` build the tree top-down:
a queue of `leaf_generation_data_t` requests records pointers to child slots
of already-allocated nodes; each iteration allocates a node, writes it into
its slot, links it via `SetNChild`, and enqueues requests for its own future
children.  The heap is the list of allocated nodes, a node's id being its
allocation index (ids are created in queue order). -/

/-- An allocated `NLeaf<int, 5>`.  `childWrites` records the writes
`mChildren[index] = leaf` performed on this node by `SetNChild`, in execution
order, as (slot index, child id) pairs; `childrenAmount` is the
`mChildrenAmount` counter.  (In the C++ the array has `NCap = 5` slots, and a
write at a slot `≥ 5` is out of bounds — the model records every write so
that the bounds question can be stated; see claim C9.) -/
structure HNode where
  value : Int
  depth : Nat
  childIndex : Nat
  childrenAmount : Nat
  childWrites : List (Nat × Nat)
deriving DecidableEq

/-- A pending request (`leaf_generation_data_t`): the slot to fill is
identified by its owning node (`none` meaning the caller's root variable,
i.e. a null `parent`) and the slot index `childIndex`. -/
structure GenReq where
  parent : Option Nat
  childIndex : Nat
deriving DecidableEq

/-- `uint16_t` truncation of a nonnegative value. -/
def u16 (n : Nat) : Nat := n % 65536

/-- The `int → uint16_t` conversion (modular, as the C++ conversion of the
`int` returned by the value deserializer into `uint16_t childrenAmount`). -/
def u16ofInt (i : Int) : Nat := (i % 65536).toNat

theorem u16ofInt_lt (i : Int) : u16ofInt i < 65536 := by
  have h1 : 0 ≤ i % 65536 := Int.emod_nonneg i (by omega)
  have h2 : i % 65536 < 65536 := Int.emod_lt_of_pos i (by omega)
  rw [u16ofInt]
  omega

theorem u16ofInt_coe (n : Nat) (h : n < 65536) : u16ofInt (n : Int) = n := by
  rw [u16ofInt]
  omega

/-- `SetNChild(index, leaf)` on the heap, `p` the node the method is called
on and `childId` the attached leaf: `mChildren[index] = leaf;
leaf->mChildIndex = index; leaf->mDepth = mDepth + 1; mChildrenAmount++`
(the depth assignment truncates to `uint16_t`; the parent update touches only
`childWrites`/`childrenAmount`, so reading the parent's depth before or after
it is equivalent). -/
def setNChild (H : List HNode) (p index childId : Nat) : List HNode :=
  let parentDepth := ((H.get? p).map HNode.depth).getD 0
  (H.modify (fun nd => { nd with
      childWrites := nd.childWrites ++ [(index, childId)],
      childrenAmount := u16 (nd.childrenAmount + 1) }) p).modify
    (fun cd => { cd with childIndex := index, depth := u16 (parentDepth + 1) })
    childId

/-- Splitting one input line as `Deserialize` does: skip if empty
(`curline.size() <= 0`), skip if it has no `':'`; otherwise cut at the FIRST
`':'` (`curline.substr(0, pos)` and `curline.substr(pos + 1, ...)`, the
latter clamped to the rest of the line). -/
def splitLine (line : String) : Option (String × String) :=
  let cs := line.toList
  if cs.length = 0 then none
  else match cs.findIdx? (fun ch => ch = ':') with
    | none => none
    | some pos => some (String.mk (cs.take pos), String.mk (cs.drop (pos + 1)))

/-- The state of the `Deserialize` loop.  `log` is ghost instrumentation: the
list of every request the loop has enqueued (used to state claim C9); it does
not influence the computation. -/
structure DState where
  heap : List HNode
  root : Option Nat
  queue : List GenReq
  log : List GenReq
deriving DecidableEq

/-- The node-creation step shared by both builders (`(*leafData.output) =
new NLeaf(value)` followed by the `SetNChild` hierarchy update): allocate a
node with the given value (fresh id = heap length, constructor zeroing the
other fields), then — for a root request — store its id in the root
variable, or — for a child request — link it via `SetNChild` (which also
performs the very same slot write the `output` pointer already did). Returns
the new heap and root. -/
def createNode (heap : List HNode) (root : Option Nat) (req : GenReq)
    (v : Int) : List HNode × Option Nat :=
  let newId := heap.length
  let H0 := heap ++ [⟨v, 0, 0, 0, []⟩]
  match req.parent with
  | none => (H0, some newId)
  | some p => (setNChild H0 p req.childIndex newId, root)

/-- One iteration of the `Deserialize` loop on one fetched line (the caller
has already checked that the queue is nonempty): skip blank or separator-less
lines; otherwise parse the two fields with the caller's `valueDeserializer`
(`vp`), create and attach the node, enqueue one request per future child
slot `0 ≤ c < childrenAmount`, and pop the front request. -/
def dstep (vp : String → Int) (s : DState) (line : String) : DState :=
  match s.queue with
  | [] => s
  | req :: qrest =>
    match splitLine line with
    | none => s
    | some (cntStr, valStr) =>
      let cnt := u16ofInt (vp cntStr)
      let hr := createNode s.heap s.root req (vp valStr)
      let newReqs := (List.range cnt).map fun c =>
        (⟨some s.heap.length, c⟩ : GenReq)
      ⟨hr.1, hr.2, qrest ++ newReqs, s.log ++ newReqs⟩

/-- `NLeaf::Deserialize`: process the stream line by line while it has data
and the population queue is nonempty. -/
def deserialize (vp : String → Int) : List String → DState → DState
  | [], s => s
  | line :: rest, s =>
    if s.queue.isEmpty then s else deserialize vp rest (dstep vp s line)

/-- The initial state of `Deserialize(stream, output, vp)`: empty heap, one
pending request for the caller's root variable. -/
def dInit : DState := ⟨[], none, [⟨none, 0⟩], []⟩

/-- Running `Deserialize` on a whole stream (given as its list of lines). -/
def deserializeStart (vp : String → Int) (lines : List String) : DState :=
  deserialize vp lines dInit

/-- The state of the `GenerateTree` loop.  `rndIdx` indexes into the ambient
sequence of `rand()` results. -/
structure GState where
  heap : List HNode
  root : Option Nat
  queue : List GenReq
  rndIdx : Nat
deriving DecidableEq

/-- The `GenerateTree` loop of `main.cpp`, with the stream of `rand()`
results passed as `rnd` (the C++ seeds the global generator with
`srand(time(NULL))`; any sequence is covered).  Each iteration pops the next
request, creates a node with value `rand() % 255`, attaches it
(`SetNChild` for non-root requests), increments the created count, and —
if the count has reached `maxLeaves` — breaks at once (without popping or
enqueuing); otherwise it enqueues `2 + rand() % 4` child requests and pops.
`fuel` bounds the iterations; the loop provably breaks or empties the queue
within `max 1 maxLeaves` iterations, so the wrapper `generateTree` passes
enough fuel for the model to agree with the unbounded C++ loop. -/
def genLoop (rnd : Nat → Nat) (maxLeaves : Int) : Nat → GState → GState
  | 0, s => s
  | fuel + 1, s =>
    match s.queue with
    | [] => s
    | req :: qrest =>
      let hr := createNode s.heap s.root req (((rnd s.rndIdx) % 255 : Nat) : Int)
      if (s.heap.length + 1 : Int) ≥ maxLeaves then
        ⟨hr.1, hr.2, req :: qrest, s.rndIdx + 1⟩
      else
        let cnt := 2 + (rnd (s.rndIdx + 1)) % 4
        let newReqs := (List.range cnt).map fun c =>
          (⟨some s.heap.length, c⟩ : GenReq)
        genLoop rnd maxLeaves fuel ⟨hr.1, hr.2, qrest ++ newReqs, s.rndIdx + 2⟩

/-- The initial state of `GenerateTree(maxLeaves)`: empty heap, one pending
request for the local `result` variable. -/
def gInit : GState := ⟨[], none, [⟨none, 0⟩], 0⟩

/-- `GenerateTree(maxLeaves)` of `main.cpp`. -/
def generateTree (rnd : Nat → Nat) (maxLeaves : Int) : GState :=
  genLoop rnd maxLeaves (maxLeaves.toNat + 1) gInit

theorem setNChild_length (H : List HNode) (p i c : Nat) :
    (setNChild H p i c).length = H.length := by
  simp [setNChild, List.length_modify]

theorem createNode_length (heap : List HNode) (root : Option Nat)
    (req : GenReq) (v : Int) :
    (createNode heap root req v).1.length = heap.length + 1 := by
  unfold createNode
  split <;> simp [setNChild_length]

/-! ### Claim C3: the generator's node count -/

theorem genLoop_length (rnd : Nat → Nat) (m : Int) :
    ∀ (fuel : Nat) (s : GState), s.queue ≠ [] → 1 ≤ fuel →
      m ≤ (s.heap.length : Int) + fuel →
      ((genLoop rnd m fuel s).heap.length : Int) =
        max ((s.heap.length : Int) + 1) m := by
  intro fuel
  induction fuel with
  | zero => intro s hq h1 hm; omega
  | succ fuel ih =>
    intro s hq h1 hm
    rw [genLoop]
    cases hqe : s.queue with
    | nil => exact absurd hqe hq
    | cons req qrest =>
      simp only
      by_cases hbr : ((s.heap.length : Int) + 1 ≥ m)
      · rw [if_pos hbr]
        simp only [createNode_length]
        push_cast
        omega
      · rw [if_neg hbr]
        rw [ih _ (by simp) (by omega) (by simp [createNode_length]; omega)]
        simp only [createNode_length]
        push_cast
        omega

/-- Claim C3 (amended) — the generator's node count: `GenerateTree(maxLeaves)`
creates exactly `maxLeaves` nodes when `maxLeaves ≥ 1`; for `maxLeaves ≤ 0`
it still creates one node (the root is created before the cap is checked), so
the count is `max 1 maxLeaves` — not `≤ maxLeaves` for every `maxLeaves` as
the claim states. -/
theorem generate_count (rnd : Nat → Nat) (m : Int) :
    ((generateTree rnd m).heap.length : Int) = max 1 m := by
  rw [generateTree]
  rw [genLoop_length rnd m (m.toNat + 1) gInit (by simp [gInit]) (by omega)
    (by simp [gInit]; omega)]
  simp [gInit]

/-- Counterexample to claim C3 as stated: `GenerateTree(0)` produces one node
(the root), violating "node count ≤ maxNodes" at `maxNodes = 0`. -/
theorem generate_count_counterexample :
    (generateTree (fun _ => 0) 0).heap.length = 1 ∧
    ¬ ((generateTree (fun _ => 0) 0).heap.length ≤ 0) := by
  constructor
  · rfl
  · intro h
    rw [show (generateTree (fun _ => 0) 0).heap.length = 1 from rfl] at h
    omega

/-! ### Lookup characterization of the creation step -/

theorem createNode_root_heap (heap : List HNode) (root : Option Nat)
    (req : GenReq) (v : Int) (hreq : req.parent = none) (j : Nat) :
    (createNode heap root req v).1[j]? =
      if j = heap.length then some ⟨v, 0, 0, 0, []⟩ else heap[j]? := by
  rw [createNode]
  simp only [hreq]
  by_cases hj : j = heap.length
  · subst hj
    simp
  · rcases Nat.lt_or_ge j heap.length with hlt | hge
    · rw [if_neg hj, List.getElem?_append_left hlt]
    · have hge2 : heap.length + 1 ≤ j := by omega
      rw [if_neg hj, List.getElem?_eq_none (by simpa using hge2),
        List.getElem?_eq_none (by omega)]

theorem createNode_root_root (heap : List HNode) (root : Option Nat)
    (req : GenReq) (v : Int) (hreq : req.parent = none) :
    (createNode heap root req v).2 = some heap.length := by
  rw [createNode]
  simp [hreq]

/-- The update `SetNChild` makes to the parent node's fields. -/
def parentUpd (i c : Nat) (nd : HNode) : HNode :=
  { nd with childWrites := nd.childWrites ++ [(i, c)],
            childrenAmount := u16 (nd.childrenAmount + 1) }

theorem createNode_child_heap (heap : List HNode) (root : Option Nat)
    (req : GenReq) (v : Int) (p : Nat) (hreq : req.parent = some p)
    (hp : p < heap.length) (j : Nat) :
    (createNode heap root req v).1[j]? =
      if j = p then (heap[j]?).map (parentUpd req.childIndex heap.length)
      else if j = heap.length then
        some ⟨v, u16 (((heap[p]?).map HNode.depth).getD 0 + 1),
          req.childIndex, 0, []⟩
      else heap[j]? := by
  have hpne : p ≠ heap.length := by omega
  rw [createNode]
  simp only [hreq]
  rw [setNChild]
  have hg : ∀ k : Nat, (heap ++ [(⟨v, 0, 0, 0, []⟩ : HNode)])[k]? =
      if k = heap.length then some ⟨v, 0, 0, 0, []⟩ else heap[k]? := by
    intro k
    by_cases hk : k = heap.length
    · subst hk; simp
    · rcases Nat.lt_or_ge k heap.length with hlt | hge
      · rw [if_neg hk, List.getElem?_append_left hlt]
      · rw [if_neg hk, List.getElem?_eq_none (by simp; omega),
          List.getElem?_eq_none (by omega)]
  have hdep : ((heap ++ [(⟨v, 0, 0, 0, []⟩ : HNode)]).get? p) = heap[p]? := by
    rw [List.get?_eq_getElem?, hg p, if_neg hpne]
  simp only [List.getElem?_modify, hdep, hg j]
  by_cases hj : j = p
  · have h1 : ¬ (j = heap.length) := by omega
    have h2 : ¬ (heap.length = j) := by omega
    simp only [hj, if_pos rfl, if_neg h1, if_neg (hj ▸ h2)]
    cases heap[p]? with
    | none => simp [hpne]
    | some nd => simp [parentUpd, h2, hj, hpne]
  · by_cases hj2 : j = heap.length
    · have h2 : ¬ (p = j) := fun h => hj h.symm
      simp [hj2, h2, hpne, Ne.symm hpne]
    · have h2 : ¬ (p = j) := fun h => hj h.symm
      have h3 : ¬ (heap.length = j) := fun h => hj2 h.symm
      simp only [if_neg hj, if_neg hj2]
      cases heap[j]? with
      | none => simp
      | some nd => simp [h2, h3]

theorem createNode_child_root (heap : List HNode) (root : Option Nat)
    (req : GenReq) (v : Int) (p : Nat) (hreq : req.parent = some p) :
    (createNode heap root req v).2 = root := by
  rw [createNode]
  simp [hreq]

/-! ### Claim C7: the depth invariant of the built heaps -/

/-- The heap facts behind claim C7: every recorded child link `(slot, c)` of
a node points into the heap, the child's `mDepth` field is the parent's plus
one in the field's `uint16_t` arithmetic (`u16`), its `mChildIndex` is the
slot; and the root node's depth is 0. -/
def heapOk (heap : List HNode) (root : Option Nat) : Prop :=
  (∀ (j : Nat) (nd : HNode), heap[j]? = some nd →
    ∀ sc ∈ nd.childWrites, sc.2 < heap.length) ∧
  (∀ (j : Nat) (nd : HNode), heap[j]? = some nd → ∀ sc ∈ nd.childWrites,
    ∃ cn : HNode, heap[sc.2]? = some cn ∧ cn.depth = u16 (nd.depth + 1) ∧
      cn.childIndex = sc.1) ∧
  (∀ r : Nat, root = some r → ∃ nd : HNode, heap[r]? = some nd ∧ nd.depth = 0)

/-- Every pending request targets a slot of an already-allocated node (or the
root variable). -/
def reqsOk (heap : List HNode) (rs : List GenReq) : Prop :=
  ∀ r ∈ rs, ∀ p, r.parent = some p → p < heap.length

theorem getElem?_lt_length {α : Type} {l : List α} {j : Nat} {x : α}
    (h : l[j]? = some x) : j < l.length := by
  by_contra hge
  rw [List.getElem?_eq_none (by omega)] at h
  cases h

theorem createNode_heapOk (heap : List HNode) (root : Option Nat)
    (req : GenReq) (v : Int) (hok : heapOk heap root)
    (hreq : ∀ p, req.parent = some p → p < heap.length) :
    heapOk (createNode heap root req v).1 (createNode heap root req v).2 := by
  obtain ⟨hw, hd, hr⟩ := hok
  cases hp : req.parent with
  | none =>
    have hget := createNode_root_heap heap root req v hp
    have hroot := createNode_root_root heap root req v hp
    refine ⟨?_, ?_, ?_⟩
    · intro j nd hj sc hsc
      rw [hget j] at hj
      rw [createNode_length]
      by_cases hje : j = heap.length
      · rw [if_pos hje] at hj
        cases hj
        cases hsc
      · rw [if_neg hje] at hj
        have := hw j nd hj sc hsc
        omega
    · intro j nd hj sc hsc
      rw [hget j] at hj
      by_cases hje : j = heap.length
      · rw [if_pos hje] at hj
        cases hj
        cases hsc
      · rw [if_neg hje] at hj
        obtain ⟨cn, hcn, hcd, hci⟩ := hd j nd hj sc hsc
        have hlt : sc.2 < heap.length := hw j nd hj sc hsc
        refine ⟨cn, ?_, hcd, hci⟩
        rw [hget sc.2, if_neg (by omega)]
        exact hcn
    · intro r hrq
      rw [hroot] at hrq
      cases hrq
      refine ⟨⟨v, 0, 0, 0, []⟩, ?_, rfl⟩
      rw [hget, if_pos rfl]
  | some p =>
    have hplt : p < heap.length := hreq p hp
    have hget := createNode_child_heap heap root req v p hp hplt
    have hroot := createNode_child_root heap root req v p hp
    have hlen := createNode_length heap root req v
    refine ⟨?_, ?_, ?_⟩
    · intro j nd hj sc hsc
      rw [hget j] at hj
      rw [hlen]
      by_cases hje : j = p
      · rw [if_pos hje] at hj
        cases hold : heap[j]? with
        | none => rw [hold] at hj; cases hj
        | some ndo =>
          rw [hold] at hj
          cases hj
          rcases List.mem_append.mp hsc with hsc | hsc
          · have := hw j ndo hold sc hsc
            omega
          · rw [List.mem_singleton] at hsc
            subst hsc
            omega
      · rw [if_neg hje] at hj
        by_cases hje2 : j = heap.length
        · rw [if_pos hje2] at hj
          cases hj
          cases hsc
        · rw [if_neg hje2] at hj
          have := hw j nd hj sc hsc
          omega
    · intro j nd hj sc hsc
      rw [hget j] at hj
      by_cases hje : j = p
      · rw [if_pos hje] at hj
        cases hold : heap[j]? with
        | none => rw [hold] at hj; cases hj
        | some ndo =>
          rw [hold] at hj
          cases hj
          rcases List.mem_append.mp hsc with hsc | hsc
          · -- an old link of the parent
            obtain ⟨cn, hcn, hcd, hci⟩ := hd j ndo hold sc hsc
            have hlt : sc.2 < heap.length := hw j ndo hold sc hsc
            by_cases hcp : sc.2 = p
            · refine ⟨parentUpd req.childIndex heap.length cn, ?_, hcd, hci⟩
              rw [hget sc.2, if_pos hcp, hcp]
              rw [hcp] at hcn
              rw [hcn]
              rfl
            · refine ⟨cn, ?_, hcd, hci⟩
              rw [hget sc.2, if_neg hcp, if_neg (by omega)]
              exact hcn
          · -- the new link to the fresh node
            rw [List.mem_singleton] at hsc
            subst hsc
            refine ⟨⟨v, u16 (((heap[p]?).map HNode.depth).getD 0 + 1),
              req.childIndex, 0, []⟩, ?_, ?_, rfl⟩
            · rw [hget, if_neg (by omega), if_pos rfl]
            · rw [hje] at hold
              rw [hold]
              rfl
      · rw [if_neg hje] at hj
        by_cases hje2 : j = heap.length
        · rw [if_pos hje2] at hj
          cases hj
          cases hsc
        · rw [if_neg hje2] at hj
          obtain ⟨cn, hcn, hcd, hci⟩ := hd j nd hj sc hsc
          have hlt : sc.2 < heap.length := hw j nd hj sc hsc
          by_cases hcp : sc.2 = p
          · refine ⟨parentUpd req.childIndex heap.length cn, ?_, hcd, hci⟩
            rw [hget sc.2, if_pos hcp, hcp]
            rw [hcp] at hcn
            rw [hcn]
            rfl
          · refine ⟨cn, ?_, hcd, hci⟩
            rw [hget sc.2, if_neg hcp, if_neg (by omega)]
            exact hcn
    · intro r hrq
      rw [hroot] at hrq
      obtain ⟨nd, hnd, hndd⟩ := hr r hrq
      have hrlt : r < heap.length := getElem?_lt_length hnd
      by_cases hrp : r = p
      · refine ⟨parentUpd req.childIndex heap.length nd, ?_, hndd⟩
        rw [hget r, if_pos hrp, hnd]
        rfl
      · refine ⟨nd, ?_, hndd⟩
        rw [hget r, if_neg hrp, if_neg (by omega)]
        exact hnd

theorem createNode_reqsOk (heap : List HNode) (root : Option Nat)
    (req : GenReq) (v : Int) (rs : List GenReq)
    (hrs : ∀ r ∈ rs, ∀ p, r.parent = some p → p < heap.length + 1) :
    reqsOk (createNode heap root req v).1 rs := by
  intro r hr p hp
  rw [createNode_length]
  exact hrs r hr p hp

/-- The builder invariant behind C7, for a (heap, root, queue) triple. -/
def buildInv (heap : List HNode) (root : Option Nat) (queue : List GenReq) :
    Prop :=
  heapOk heap root ∧ reqsOk heap queue

/-! Equations for the two loop bodies. -/

theorem dstep_queue_nil (vp : String → Int) (s : DState) (line : String)
    (h : s.queue = []) : dstep vp s line = s := by
  simp only [dstep, h]

theorem dstep_skip (vp : String → Int) (s : DState) (line : String)
    (req : GenReq) (qrest : List GenReq) (h : s.queue = req :: qrest)
    (hsp : splitLine line = none) : dstep vp s line = s := by
  simp only [dstep, h, hsp]

theorem dstep_process (vp : String → Int) (s : DState) (line : String)
    (req : GenReq) (qrest : List GenReq) (cntStr valStr : String)
    (h : s.queue = req :: qrest) (hsp : splitLine line = some (cntStr, valStr)) :
    dstep vp s line =
      ⟨(createNode s.heap s.root req (vp valStr)).1,
       (createNode s.heap s.root req (vp valStr)).2,
       qrest ++ (List.range (u16ofInt (vp cntStr))).map
         (fun c => ⟨some s.heap.length, c⟩),
       s.log ++ (List.range (u16ofInt (vp cntStr))).map
         (fun c => ⟨some s.heap.length, c⟩)⟩ := by
  simp only [dstep, h, hsp]

theorem genLoop_zero (rnd : Nat → Nat) (m : Int) (s : GState) :
    genLoop rnd m 0 s = s := by
  rw [genLoop]

theorem genLoop_queue_nil (rnd : Nat → Nat) (m : Int) (fuel : Nat)
    (s : GState) (h : s.queue = []) : genLoop rnd m (fuel + 1) s = s := by
  rw [genLoop]
  simp only [h]

theorem genLoop_break (rnd : Nat → Nat) (m : Int) (fuel : Nat) (s : GState)
    (req : GenReq) (qrest : List GenReq) (h : s.queue = req :: qrest)
    (hbr : (s.heap.length : Int) + 1 ≥ m) :
    genLoop rnd m (fuel + 1) s =
      ⟨(createNode s.heap s.root req (((rnd s.rndIdx) % 255 : Nat) : Int)).1,
       (createNode s.heap s.root req (((rnd s.rndIdx) % 255 : Nat) : Int)).2,
       req :: qrest, s.rndIdx + 1⟩ := by
  rw [genLoop]
  simp only [h]
  rw [if_pos (by omega)]

theorem genLoop_continue (rnd : Nat → Nat) (m : Int) (fuel : Nat) (s : GState)
    (req : GenReq) (qrest : List GenReq) (h : s.queue = req :: qrest)
    (hbr : ¬ ((s.heap.length : Int) + 1 ≥ m)) :
    genLoop rnd m (fuel + 1) s =
      genLoop rnd m fuel
        ⟨(createNode s.heap s.root req (((rnd s.rndIdx) % 255 : Nat) : Int)).1,
         (createNode s.heap s.root req (((rnd s.rndIdx) % 255 : Nat) : Int)).2,
         qrest ++ (List.range (2 + (rnd (s.rndIdx + 1)) % 4)).map
           (fun c => ⟨some s.heap.length, c⟩),
         s.rndIdx + 2⟩ := by
  rw [genLoop]
  simp only [h]
  rw [if_neg (by omega)]

theorem dstep_buildInv (vp : String → Int) (s : DState) (line : String)
    (h : buildInv s.heap s.root s.queue) :
    buildInv (dstep vp s line).heap (dstep vp s line).root
      (dstep vp s line).queue := by
  obtain ⟨hok, hrq⟩ := h
  cases hq : s.queue with
  | nil => rw [dstep_queue_nil vp s line hq]; exact ⟨hok, hrq⟩
  | cons req qrest =>
    cases hsp : splitLine line with
    | none => rw [dstep_skip vp s line req qrest hq hsp]; exact ⟨hok, hrq⟩
    | some cv =>
      rw [dstep_process vp s line req qrest cv.1 cv.2 hq (by rw [hsp])]
      have hreq : ∀ p, req.parent = some p → p < s.heap.length :=
        fun p hp => hrq req (by rw [hq]; exact List.mem_cons_self _ _) p hp
      refine ⟨createNode_heapOk _ _ _ _ hok hreq, ?_⟩
      apply createNode_reqsOk
      intro r hr p hp
      rcases List.mem_append.mp hr with hr | hr
      · have := hrq r (by rw [hq]; exact List.mem_cons_of_mem _ hr) p hp
        omega
      · rw [List.mem_map] at hr
        obtain ⟨c, _, hc⟩ := hr
        rw [← hc] at hp
        cases hp
        omega

theorem deserialize_buildInv (vp : String → Int) (lines : List String) :
    ∀ s : DState, buildInv s.heap s.root s.queue →
      buildInv (deserialize vp lines s).heap (deserialize vp lines s).root
        (deserialize vp lines s).queue := by
  induction lines with
  | nil => intro s h; exact h
  | cons line rest ih =>
    intro s h
    rw [deserialize]
    by_cases hq : s.queue.isEmpty
    · rw [if_pos hq]; exact h
    · rw [if_neg hq]
      exact ih _ (dstep_buildInv vp s line h)

theorem genLoop_buildInv (rnd : Nat → Nat) (m : Int) :
    ∀ (fuel : Nat) (s : GState), buildInv s.heap s.root s.queue →
      buildInv (genLoop rnd m fuel s).heap (genLoop rnd m fuel s).root
        (genLoop rnd m fuel s).queue := by
  intro fuel
  induction fuel with
  | zero => intro s h; rw [genLoop_zero]; exact h
  | succ fuel ih =>
    intro s h
    obtain ⟨hok, hrq⟩ := h
    cases hq : s.queue with
    | nil => rw [genLoop_queue_nil rnd m fuel s hq]; exact ⟨hok, hrq⟩
    | cons req qrest =>
      have hreq : ∀ p, req.parent = some p → p < s.heap.length :=
        fun p hp => hrq req (by rw [hq]; exact List.mem_cons_self _ _) p hp
      have hok2 := createNode_heapOk s.heap s.root req
        (((rnd s.rndIdx) % 255 : Nat) : Int) hok hreq
      by_cases hbr : ((s.heap.length : Int) + 1 ≥ m)
      · rw [genLoop_break rnd m fuel s req qrest hq hbr]
        refine ⟨hok2, ?_⟩
        apply createNode_reqsOk
        intro r hr p hp
        have := hrq r (by rw [hq]; exact hr) p hp
        omega
      · rw [genLoop_continue rnd m fuel s req qrest hq hbr]
        apply ih
        refine ⟨hok2, ?_⟩
        apply createNode_reqsOk
        intro r hr p hp
        rcases List.mem_append.mp hr with hr | hr
        · have := hrq r (by rw [hq]; exact List.mem_cons_of_mem _ hr) p hp
          omega
        · rw [List.mem_map] at hr
          obtain ⟨c, _, hc⟩ := hr
          rw [← hc] at hp
          cases hp
          omega

/-- Claim C7 — Depth invariant: in the heap built by `GenerateTree` (for any
`rand()` sequence and cap) and in the heap built by `Deserialize` (for any
value parser and input lines), every attached child's `mDepth` field equals
its parent's plus one in the field's `uint16_t` arithmetic (`u16 (d + 1)`,
which is plainly `d + 1` whenever `d + 1 < 65536`), its `mChildIndex` is its
slot, and the root node's depth is 0. -/
theorem depth_invariant :
    (∀ (rnd : Nat → Nat) (m : Int),
      heapOk (generateTree rnd m).heap (generateTree rnd m).root) ∧
    (∀ (vp : String → Int) (lines : List String),
      heapOk (deserializeStart vp lines).heap
        (deserializeStart vp lines).root) := by
  have hInit : buildInv ([] : List HNode) none [⟨none, 0⟩] := by
    refine ⟨⟨?_, ?_, ?_⟩, ?_⟩
    · intro j nd hj; simp at hj
    · intro j nd hj; simp at hj
    · intro r hr; cases hr
    · intro r hr p hp
      rw [List.mem_singleton] at hr
      subst hr
      simp at hp
  constructor
  · intro rnd m
    exact (genLoop_buildInv rnd m (m.toNat + 1) gInit hInit).1
  · intro vp lines
    exact (deserialize_buildInv vp lines dInit hInit).1

/-- The numeric value of a digit string (no sign). -/
def digitsVal (cs : List Char) : Int :=
  cs.foldl (fun acc c => acc * 10 + ((c.toNat - '0'.toNat : Nat) : Int)) 0

/-- Model of the value deserializer `main.cpp` passes to `Deserialize`
(`return std::stoi(serialized);`), on the decimal strings the program itself
produces: an optional leading minus sign followed by digits.  (The real
`stoi` also skips leading whitespace and throws on garbage or overflow;
none of that arises on the strings `Serialize` emits.) -/
def parseIntS (s : String) : Int :=
  match s.toList with
  | '-' :: rest => - digitsVal rest
  | cs => digitsVal cs

/-- Witness for C7: decoding the two-line stream `1:5`, `0:7` yields a root
(id 0, depth field 0) whose slot-0 child (id 1) has depth field
`u16 (0 + 1) = 1` and child index 0, as the theorem asserts. -/
theorem depth_invariant_witness :
    ((deserializeStart parseIntS ["1:5", "0:7"]).heap[0]? =
      some ⟨5, 0, 0, 1, [(0, 1)]⟩) ∧
    (∃ cn : HNode, (deserializeStart parseIntS ["1:5", "0:7"]).heap[(0,1).2]? =
      some cn ∧ cn.depth = u16 ((⟨5, 0, 0, 1, [(0, 1)]⟩ : HNode).depth + 1) ∧
      cn.childIndex = (0, 1).1) := by
  refine ⟨by decide, ?_⟩
  exact (depth_invariant.2 parseIntS ["1:5", "0:7"]).2.1 0
    ⟨5, 0, 0, 1, [(0, 1)]⟩ (by decide) (0, 1) (by decide)

/-! ### Claim C9: capacity of the child array -/

/-- `mChildrenAmount` of the node at id `j` (0 if unallocated). -/
def amountAt (heap : List HNode) (j : Nat) : Nat :=
  ((heap[j]?).map HNode.childrenAmount).getD 0

/-- How many pending requests target slots of node `j`. -/
def reqCount (j : Nat) (q : List GenReq) : Nat :=
  (q.filter fun r => r.parent == some j).length

theorem reqCount_nil (j : Nat) : reqCount j [] = 0 := rfl

theorem reqCount_cons (j : Nat) (r : GenReq) (q : List GenReq) :
    reqCount j (r :: q) =
      (if r.parent == some j then 1 else 0) + reqCount j q := by
  rw [reqCount, List.filter_cons]
  by_cases h : (r.parent == some j) = true
  · rw [if_pos h, if_pos h, List.length_cons, reqCount]
    omega
  · rw [if_neg h, if_neg h, reqCount]
    omega

theorem reqCount_append (j : Nat) (q1 q2 : List GenReq) :
    reqCount j (q1 ++ q2) = reqCount j q1 + reqCount j q2 := by
  simp [reqCount, List.filter_append]

theorem reqCount_newReqs (len n j : Nat) :
    reqCount j ((List.range n).map fun c => (⟨some len, c⟩ : GenReq)) =
      if len = j then n else 0 := by
  induction n with
  | zero => simp [reqCount]
  | succ n ih =>
    rw [List.range_succ, List.map_append, reqCount_append, ih]
    by_cases h : len = j
    · simp [reqCount_cons, reqCount_nil, h]
    · simp [reqCount_cons, reqCount_nil, h]

theorem reqCount_eq_zero (j : Nat) (q : List GenReq)
    (h : ∀ r ∈ q, ∀ p, r.parent = some p → p ≠ j) : reqCount j q = 0 := by
  rw [reqCount, List.length_eq_zero]
  rw [List.filter_eq_nil_iff]
  intro r hr
  intro hbeq
  rw [beq_iff_eq] at hbeq
  exact h r hr j hbeq rfl

/-- The capacity bookkeeping behind C9: every pending or logged slot index is
below `cap`, every node's `mChildrenAmount` and every recorded write slot are
below/at `cap`, and — the inductive budget — a node's current amount plus the
requests still pending for it never exceed `cap`. -/
def capOk (cap : Nat) (heap : List HNode) (queue : List GenReq) : Prop :=
  (∀ r ∈ queue, r.childIndex < cap) ∧
  (∀ (j : Nat) (nd : HNode), heap[j]? = some nd →
    nd.childrenAmount ≤ cap ∧ ∀ sc ∈ nd.childWrites, sc.1 < cap) ∧
  (∀ j : Nat, j < heap.length → amountAt heap j + reqCount j queue ≤ cap)

theorem step_capOk (cap : Nat) (heap : List HNode) (root : Option Nat)
    (req : GenReq) (v : Int) (qrest : List GenReq) (newCnt : Nat)
    (hcap65 : cap ≤ 65535) (hnew : newCnt ≤ cap)
    (hco : capOk cap heap (req :: qrest))
    (hrq : reqsOk heap (req :: qrest)) :
    capOk cap (createNode heap root req v).1
      (qrest ++ (List.range newCnt).map fun c => ⟨some heap.length, c⟩) := by
  obtain ⟨hqi, hnb, hbud⟩ := hco
  have hlen := createNode_length heap root req v
  have hqrest0 : reqCount heap.length qrest = 0 := by
    apply reqCount_eq_zero
    intro r hr p hp
    have := hrq r (List.mem_cons_of_mem _ hr) p hp
    omega
  have hq' : ∀ r ∈ (qrest ++ (List.range newCnt).map
      fun c => (⟨some heap.length, c⟩ : GenReq)), r.childIndex < cap := by
    intro r hr
    rcases List.mem_append.mp hr with hr | hr
    · exact hqi r (List.mem_cons_of_mem _ hr)
    · rw [List.mem_map] at hr
      obtain ⟨c, hc, hcr⟩ := hr
      rw [List.mem_range] at hc
      rw [← hcr]
      show c < cap
      omega
  cases hp : req.parent with
  | none =>
    have hget := createNode_root_heap heap root req v hp
    refine ⟨hq', ?_, ?_⟩
    · intro j nd hj
      rw [hget j] at hj
      by_cases hje : j = heap.length
      · rw [if_pos hje] at hj
        cases hj
        exact ⟨Nat.zero_le cap, by intro sc hsc; cases hsc⟩
      · rw [if_neg hje] at hj
        exact hnb j nd hj
    · intro j hjlt
      rw [hlen] at hjlt
      rw [reqCount_append, reqCount_newReqs]
      have hget2 : amountAt (createNode heap root req v).1 j =
          if j = heap.length then 0 else amountAt heap j := by
        rw [amountAt, hget j]
        by_cases hje : j = heap.length
        · rw [if_pos hje, if_pos hje]; rfl
        · rw [if_neg hje, if_neg hje]; rfl
      rw [hget2]
      by_cases hje : j = heap.length
      · rw [if_pos hje, if_pos hje.symm, hje, hqrest0]
        omega
      · rw [if_neg hje, if_neg (fun h => hje h.symm)]
        have := hbud j (by omega)
        rw [reqCount_cons] at this
        omega
  | some p =>
    have hplt : p < heap.length := hrq req (List.mem_cons_self _ _) p hp
    have hget := createNode_child_heap heap root req v p hp hplt
    obtain ⟨ndp, hndp⟩ : ∃ nd : HNode, heap[p]? = some nd :=
      ⟨heap[p], List.getElem?_eq_getElem hplt⟩
    have hbudp := hbud p hplt
    have hcount : (req.parent == some p) = true := by rw [hp]; simp
    rw [reqCount_cons, hcount, if_pos rfl, amountAt, hndp] at hbudp
    simp only [Option.map_some', Option.getD_some] at hbudp
    have hamt1 : ndp.childrenAmount + 1 ≤ cap := by omega
    have hu16 : u16 (ndp.childrenAmount + 1) = ndp.childrenAmount + 1 := by
      rw [u16, Nat.mod_eq_of_lt (by omega)]
    have hne : p ≠ heap.length := by omega
    refine ⟨hq', ?_, ?_⟩
    · intro j nd hj
      rw [hget j] at hj
      by_cases hje : j = p
      · rw [if_pos hje] at hj
        rw [hje, hndp] at hj
        cases hj
        have hb := hnb p ndp hndp
        constructor
        · show u16 (ndp.childrenAmount + 1) ≤ cap
          rw [hu16]
          omega
        · intro sc hsc
          rcases List.mem_append.mp hsc with hsc | hsc
          · exact hb.2 sc hsc
          · rw [List.mem_singleton] at hsc
            subst hsc
            exact hqi req (List.mem_cons_self _ _)
      · rw [if_neg hje] at hj
        by_cases hje2 : j = heap.length
        · rw [if_pos hje2] at hj
          cases hj
          exact ⟨Nat.zero_le cap, by intro sc hsc; cases hsc⟩
        · rw [if_neg hje2] at hj
          exact hnb j nd hj
    · intro j hjlt
      rw [hlen] at hjlt
      rw [reqCount_append, reqCount_newReqs]
      by_cases hje : j = p
      · subst hje
        have hA : amountAt (createNode heap root req v).1 j =
            ndp.childrenAmount + 1 := by
          rw [amountAt, hget j, if_pos rfl, hndp]
          simp only [Option.map_some', Option.getD_some]
          exact hu16
        rw [hA, if_neg (fun h => hne h.symm)]
        omega
      · by_cases hje2 : j = heap.length
        · subst hje2
          have hA : amountAt (createNode heap root req v).1 heap.length = 0 := by
            rw [amountAt, hget heap.length, if_neg hje, if_pos rfl]
            rfl
          rw [hA, if_pos rfl, hqrest0]
          omega
        · have hA : amountAt (createNode heap root req v).1 j =
              amountAt heap j := by
            rw [amountAt, hget j, if_neg hje, if_neg hje2]
            rfl
          rw [hA, if_neg (fun h => hje2 h.symm)]
          have := hbud j (by omega)
          rw [reqCount_cons] at this
          omega

/-- Every record line of the stream parses to a child count of at most
`cap`. -/
def linesCapped (vp : String → Int) (cap : Nat) (lines : List String) : Prop :=
  ∀ line ∈ lines, ∀ cs vs : String, splitLine line = some (cs, vs) →
    u16ofInt (vp cs) ≤ cap

/-- The C9 invariant carried through the `Deserialize` loop. -/
def dCapInv (cap : Nat) (s : DState) : Prop :=
  capOk cap s.heap s.queue ∧ reqsOk s.heap s.queue ∧
  ∀ r ∈ s.log, r.childIndex < cap

theorem dstep_dCapInv (vp : String → Int) (cap : Nat) (s : DState)
    (line : String) (hcap65 : cap ≤ 65535)
    (hline : ∀ cs vs : String, splitLine line = some (cs, vs) →
      u16ofInt (vp cs) ≤ cap)
    (h : dCapInv cap s) : dCapInv cap (dstep vp s line) := by
  obtain ⟨hco, hrq, hlog⟩ := h
  cases hq : s.queue with
  | nil => rw [dstep_queue_nil vp s line hq]; exact ⟨hco, hrq, hlog⟩
  | cons req qrest =>
    cases hsp : splitLine line with
    | none => rw [dstep_skip vp s line req qrest hq hsp]; exact ⟨hco, hrq, hlog⟩
    | some cv =>
      rw [dstep_process vp s line req qrest cv.1 cv.2 hq (by rw [hsp])]
      have hcnt := hline cv.1 cv.2 (by rw [hsp])
      have hco' : capOk cap s.heap (req :: qrest) := hq ▸ hco
      have hrq' : reqsOk s.heap (req :: qrest) := hq ▸ hrq
      refine ⟨step_capOk cap s.heap s.root req (vp cv.2) qrest _ hcap65 hcnt
        hco' hrq', ?_, ?_⟩
      · apply createNode_reqsOk
        intro r hr p hp
        rcases List.mem_append.mp hr with hr | hr
        · have := hrq' r (List.mem_cons_of_mem _ hr) p hp
          omega
        · rw [List.mem_map] at hr
          obtain ⟨c, _, hc⟩ := hr
          rw [← hc] at hp
          cases hp
          omega
      · intro r hr
        rcases List.mem_append.mp hr with hr | hr
        · exact hlog r hr
        · rw [List.mem_map] at hr
          obtain ⟨c, hc, hcr⟩ := hr
          rw [List.mem_range] at hc
          rw [← hcr]
          show c < cap
          omega

theorem deserialize_dCapInv (vp : String → Int) (cap : Nat)
    (hcap65 : cap ≤ 65535) (lines : List String)
    (hlines : linesCapped vp cap lines) :
    ∀ s : DState, dCapInv cap s → dCapInv cap (deserialize vp lines s) := by
  induction lines with
  | nil => intro s h; exact h
  | cons line rest ih =>
    intro s h
    rw [deserialize]
    by_cases hq : s.queue.isEmpty
    · rw [if_pos hq]; exact h
    · rw [if_neg hq]
      refine ih (fun l hl => hlines l (List.mem_cons_of_mem _ hl)) _ ?_
      exact dstep_dCapInv vp cap s line hcap65
        (hlines line (List.mem_cons_self _ _)) h

theorem genLoop_capNodes (rnd : Nat → Nat) (m : Int) :
    ∀ (fuel : Nat) (s : GState),
      capOk NCap s.heap s.queue → reqsOk s.heap s.queue →
      ∀ (j : Nat) (nd : HNode), (genLoop rnd m fuel s).heap[j]? = some nd →
        nd.childrenAmount ≤ NCap ∧ ∀ sc ∈ nd.childWrites, sc.1 < NCap := by
  intro fuel
  induction fuel with
  | zero => intro s hco _; rw [genLoop_zero]; exact hco.2.1
  | succ fuel ih =>
    intro s hco hrq
    cases hq : s.queue with
    | nil => rw [genLoop_queue_nil rnd m fuel s hq]; exact hco.2.1
    | cons req qrest =>
      have hco' : capOk NCap s.heap (req :: qrest) := hq ▸ hco
      have hrq' : reqsOk s.heap (req :: qrest) := hq ▸ hrq
      by_cases hbr : ((s.heap.length : Int) + 1 ≥ m)
      · rw [genLoop_break rnd m fuel s req qrest hq hbr]
        exact (step_capOk NCap s.heap s.root req _ qrest 0 (by rw [NCap]; omega)
          (Nat.zero_le _) hco' hrq').2.1
      · rw [genLoop_continue rnd m fuel s req qrest hq hbr]
        have hcnt : 2 + (rnd (s.rndIdx + 1)) % 4 ≤ NCap := by
          have : (rnd (s.rndIdx + 1)) % 4 < 4 := Nat.mod_lt _ (by omega)
          rw [NCap]
          omega
        apply ih
        · exact step_capOk NCap s.heap s.root req _ qrest _
            (by rw [NCap]; omega) hcnt hco' hrq'
        · apply createNode_reqsOk
          intro r hr p hp
          rcases List.mem_append.mp hr with hr | hr
          · have := hrq' r (List.mem_cons_of_mem _ hr) p hp
            omega
          · rw [List.mem_map] at hr
            obtain ⟨c, _, hc⟩ := hr
            rw [← hc] at hp
            cases hp
            omega

/-- Claim C9 (amended) — Capacity: every node of a tree built by
`GenerateTree` has `mChildrenAmount ≤ N = 5` and all its recorded child-slot
writes are at slots `< 5`; the same holds for a tree built by `Deserialize`
PROVIDED every record line of the stream parses to a child count `≤ 5` (and
then every request `Deserialize` enqueues also targets a slot `< 5`).
`Deserialize` itself performs no bounds check, so the proviso is necessary —
see the counterexample, where a single record with count 7 drives the count
and the slot indices past the capacity (an out-of-bounds array write in the
C++). -/
theorem capacity_invariant :
    (∀ (rnd : Nat → Nat) (m : Int) (j : Nat) (nd : HNode),
      (generateTree rnd m).heap[j]? = some nd →
        nd.childrenAmount ≤ NCap ∧ ∀ sc ∈ nd.childWrites, sc.1 < NCap) ∧
    (∀ (vp : String → Int) (lines : List String), linesCapped vp NCap lines →
      (∀ (j : Nat) (nd : HNode),
        (deserializeStart vp lines).heap[j]? = some nd →
          nd.childrenAmount ≤ NCap ∧ ∀ sc ∈ nd.childWrites, sc.1 < NCap) ∧
      (∀ r ∈ (deserializeStart vp lines).log, r.childIndex < NCap)) := by
  have hcapOk0 : capOk NCap ([] : List HNode) [⟨none, 0⟩] := by
    refine ⟨?_, ?_, ?_⟩
    · intro r hr
      rw [List.mem_singleton] at hr
      subst hr
      show 0 < NCap
      rw [NCap]
      omega
    · intro j nd hj
      simp at hj
    · intro j hj
      simp at hj
  have hreqs0 : reqsOk ([] : List HNode) [⟨none, 0⟩] := by
    intro r hr p hp
    rw [List.mem_singleton] at hr
    subst hr
    simp at hp
  constructor
  · intro rnd m
    exact genLoop_capNodes rnd m (m.toNat + 1) gInit hcapOk0 hreqs0
  · intro vp lines hlines
    have h := deserialize_dCapInv vp NCap (by rw [NCap]; omega) lines hlines
      dInit ⟨hcapOk0, hreqs0, by intro r hr; cases hr⟩
    exact ⟨h.1.2.1, h.2.2⟩

/-- The hostile stream for the C9 counterexample: one record announcing 7
children (with `N = 5`), followed by its 7 children. -/
def badLines : List String :=
  ["7:0", "0:1", "0:2", "0:3", "0:4", "0:5", "0:6", "0:7"]

/-- Counterexample to claim C9 as stated: decoding `badLines` (no bounds
check anywhere in `Deserialize`) yields a root whose `mChildrenAmount` is
7 > 5 = N, and the loop enqueues a request for slot 6 ≥ N (in the C++ this
writes `mChildren[5]` and `mChildren[6]`, past the end of the array). -/
theorem capacity_counterexample :
    ((deserializeStart parseIntS badLines).heap[0]?.map HNode.childrenAmount
      = some 7) ∧
    ¬ (7 ≤ NCap) ∧
    (⟨some 0, 6⟩ : GenReq) ∈ (deserializeStart parseIntS badLines).log ∧
    ¬ ((⟨some 0, 6⟩ : GenReq).childIndex < NCap) := by
  refine ⟨by decide, by decide, by decide, by decide⟩

/-- Witness for C9 (amended): the two-line stream `1:5`, `0:7` is capped by
`N = 5`, and the theorem's conclusions hold for its decoded heap. -/
theorem capacity_invariant_witness :
    linesCapped parseIntS NCap ["1:5", "0:7"] ∧
    ((∀ (j : Nat) (nd : HNode),
        (deserializeStart parseIntS ["1:5", "0:7"]).heap[j]? = some nd →
          nd.childrenAmount ≤ NCap ∧ ∀ sc ∈ nd.childWrites, sc.1 < NCap) ∧
      (∀ r ∈ (deserializeStart parseIntS ["1:5", "0:7"]).log,
        r.childIndex < NCap)) := by
  have hl : linesCapped parseIntS NCap ["1:5", "0:7"] := by
    intro line hline cs vs hsp
    rcases List.mem_cons.mp hline with h | h
    · subst h
      rw [show splitLine "1:5" = some ("1", "5") from rfl] at hsp
      simp only [Option.some_inj, Prod.mk.injEq] at hsp
      obtain ⟨h1, h2⟩ := hsp
      subst h1
      decide
    · rcases List.mem_cons.mp h with h | h
      · subst h
        rw [show splitLine "0:7" = some ("0", "7") from rfl] at hsp
        simp only [Option.some_inj, Prod.mk.injEq] at hsp
        obtain ⟨h1, h2⟩ := hsp
        subst h1
        decide
      · cases h
  exact ⟨hl, capacity_invariant.2 parseIntS _ hl⟩

/-! ### Claim C1: the round trip.  Step 1 — the emitted lines parse back. -/

theorem digitChar_ne_colon (m : Nat) : Nat.digitChar m ≠ ':' := by
  match m with
  | 0 => decide
  | 1 => decide
  | 2 => decide
  | 3 => decide
  | 4 => decide
  | 5 => decide
  | 6 => decide
  | 7 => decide
  | 8 => decide
  | 9 => decide
  | 10 => decide
  | 11 => decide
  | 12 => decide
  | 13 => decide
  | 14 => decide
  | 15 => decide
  | n + 16 =>
    have h : Nat.digitChar (n + 16) = '*' := rfl
    rw [h]
    decide

theorem toDigitsCore_no_colon (f : Nat) : ∀ (n : Nat) (acc : List Char),
    (∀ ch ∈ acc, ch ≠ ':') → ∀ ch ∈ Nat.toDigitsCore 10 f n acc, ch ≠ ':' := by
  induction f with
  | zero =>
    intro n acc hacc ch hch
    rw [Nat.toDigitsCore] at hch
    exact hacc ch hch
  | succ f ih =>
    intro n acc hacc ch hch
    rw [Nat.toDigitsCore] at hch
    have hacc2 : ∀ ch ∈ Nat.digitChar (n % 10) :: acc, ch ≠ ':' := by
      intro c hc
      rcases List.mem_cons.mp hc with hc | hc
      · subst hc; exact digitChar_ne_colon _
      · exact hacc c hc
    by_cases hdiv : n / 10 = 0
    · rw [if_pos hdiv] at hch
      exact hacc2 ch hch
    · rw [if_neg hdiv] at hch
      exact ih (n / 10) _ hacc2 ch hch

theorem asString_toList (l : List Char) : (List.asString l).toList = l := rfl

theorem natRepr_no_colon (n : Nat) : ∀ ch ∈ (Nat.repr n).toList, ch ≠ ':' := by
  intro ch hch
  rw [Nat.repr, Nat.toDigits, asString_toList] at hch
  exact toDigitsCore_no_colon (n + 1) n [] (by intro c hc; cases hc) ch hch

theorem natToString_no_colon (n : Nat) : ∀ ch ∈ (toString n).toList, ch ≠ ':' :=
  natRepr_no_colon n

theorem intToString_no_colon (v : Int) : ∀ ch ∈ (toString v).toList, ch ≠ ':' := by
  cases v with
  | ofNat m => exact natRepr_no_colon m
  | negSucc m =>
    intro ch hch
    have h1 : toString (Int.negSucc m) = "-" ++ Nat.repr (m + 1) := rfl
    rw [h1] at hch
    rw [show ("-" ++ Nat.repr (m + 1)).toList
        = '-' :: (Nat.repr (m + 1)).toList from rfl] at hch
    rcases List.mem_cons.mp hch with hch | hch
    · subst hch; decide
    · exact natRepr_no_colon (m + 1) ch hch

theorem findIdx?_colon (B : List Char) : ∀ (A : List Char) (i : Nat),
    (∀ ch ∈ A, ch ≠ ':') →
    List.findIdx? (fun ch => ch = ':') (A ++ ':' :: B) i = some (A.length + i) := by
  intro A
  induction A with
  | nil =>
    intro i _
    rw [List.nil_append, List.findIdx?_cons, if_pos (by decide)]
    simp
  | cons a A ih =>
    intro i hA
    rw [List.cons_append, List.findIdx?_cons,
      if_neg (by simp [hA a (List.mem_cons_self _ _)]),
      ih (i + 1) fun c hc => hA c (List.mem_cons_of_mem _ hc)]
    rw [List.length_cons]
    congr 1
    omega

/-- The component strings of a record line are recovered exactly by the
splitter (the first colon is the separator), as long as the left component is
colon-free. -/
theorem splitLine_record (cs vs : String) (hcs : ∀ ch ∈ cs.toList, ch ≠ ':') :
    splitLine (cs ++ ":" ++ vs) = some (cs, vs) := by
  have htl : (cs ++ ":" ++ vs).toList = cs.toList ++ ':' :: vs.toList := by
    show (cs.data ++ ":".data ++ vs.data) = _
    simp
  rw [splitLine]
  simp only [htl]
  rw [if_neg (by simp only [List.length_append, List.length_cons]; omega)]
  rw [findIdx?_colon vs.toList cs.toList 0 hcs]
  simp only [Nat.add_zero]
  rw [List.take_left]
  have hdrop : (cs.toList ++ ':' :: vs.toList).drop (cs.toList.length + 1)
      = vs.toList := by
    rw [show cs.toList ++ ':' :: vs.toList
        = (cs.toList ++ [':']) ++ vs.toList by simp]
    rw [show cs.toList.length + 1 = (cs.toList ++ [':']).length by simp]
    exact List.drop_left _ _
  rw [hdrop]
  rfl

/-! Step 2 — the unbounded serializer emits exactly one record per node in
breadth-first order. -/

theorem serialize_unbounded (t : Leaf)
    (hdep : ∀ l ∈ subNodes t, l.depth ≤ 65535) :
    serialize t unboundedDepth false = (bfsL [t]).map recordLine := by
  rw [serialize_eq]
  have hstop : ∀ l ∈ bfsL [t], serStop unboundedDepth l = false := by
    intro l hl
    have hmem : l ∈ subNodes t := by
      have := (bfsL_perm [t]).mem_iff.mp hl
      simpa using this
    have hd := hdep l hmem
    simp only [serStop, unboundedDepth, decide_eq_false_iff_not]
    omega
  rw [emitUntil_no_stop _ _ _ hstop]
  apply flatMap_single_eq_map
  intro l hl
  simp [serEmit, hstop l hl]

/-- The record of one flat record pair. -/
def recLine (r : Nat × Int) : String := toString r.1 ++ ":" ++ toString r.2

theorem recordLine_eq (l : Leaf) :
    recordLine l = recLine (l.childAmount, l.value) := rfl

/-- The breadth-first (childCount, value) record sequence of a tree — the
data claim C1 requires the round trip to preserve. -/
def treeRecords (t : Leaf) : List (Nat × Int) :=
  (bfsL [t]).map fun l => (l.childAmount, l.value)

theorem serialize_unbounded_recs (t : Leaf)
    (hdep : ∀ l ∈ subNodes t, l.depth ≤ 65535) :
    serialize t unboundedDepth false = (treeRecords t).map recLine := by
  rw [serialize_unbounded t hdep, treeRecords, List.map_map]
  rfl

/-! Step 3 — offsets of the record sequence, and the two counting facts that
make a breadth-first record sequence decodable. -/

/-- `offR R m` = 1 + the childCounts of the first `m` records: the number of
requests ever enqueued after `m` nodes have been decoded (the root request
plus one request per announced child). -/
def offR (R : List (Nat × Int)) (m : Nat) : Nat :=
  1 + ((R.take m).map Prod.fst).sum

/-- Child count of record `i` (0 out of range). -/
def cntR (R : List (Nat × Int)) (i : Nat) : Nat := ((R[i]?).map Prod.fst).getD 0

/-- Value of record `i` (0 out of range). -/
def valR (R : List (Nat × Int)) (i : Nat) : Int := ((R[i]?).map Prod.snd).getD 0

theorem offR_zero (R : List (Nat × Int)) : offR R 0 = 1 := by
  simp [offR]

theorem offR_succ (R : List (Nat × Int)) (m : Nat) (hm : m < R.length) :
    offR R (m + 1) = offR R m + cntR R m := by
  rw [offR, offR, List.take_succ, List.map_append, List.sum_append, cntR,
    List.getElem?_eq_getElem hm]
  simp
  omega

theorem offR_le_succ (R : List (Nat × Int)) (m : Nat) :
    offR R m ≤ offR R (m + 1) := by
  by_cases hm : m < R.length
  · rw [offR_succ R m hm]; omega
  · rw [offR, offR, List.take_of_length_le (by omega),
      List.take_of_length_le (by omega)]

theorem offR_mono (R : List (Nat × Int)) {a b : Nat} (h : a ≤ b) :
    offR R a ≤ offR R b := by
  induction b with
  | zero => have : a = 0 := by omega
            rw [this]
  | succ b ih =>
    rcases Nat.lt_or_ge a (b + 1) with hab | hab
    · exact le_trans (ih (by omega)) (offR_le_succ R b)
    · have : a = b + 1 := by omega
      rw [this]

/-- Queue fact: along a breadth-first enumeration, after `m` nodes at least
`m + 1 - (initial queue size)` children have been announced — for a single
root, the pending count `offR - m` stays positive while nodes remain. -/
theorem bfsL_prefix_gt : ∀ (q : List Leaf) (m : Nat), m < (bfsL q).length →
    m < q.length + (((bfsL q).take m).map Leaf.childAmount).sum := by
  intro q
  induction q using bfsL.induct with
  | case1 => intro m hm; simp at hm
  | case2 l q ih =>
    intro m hm
    rw [bfsL_cons] at hm ⊢
    cases m with
    | zero => simp
    | succ m =>
      rw [List.length_cons] at hm
      have := ih m (by omega)
      rw [List.take_succ_cons, List.map_cons, List.sum_cons]
      simp only [List.length_append, List.length_cons] at this ⊢
      have hca : l.childAmount = l.children.length := rfl
      omega

/-- Counting fact: the childCounts along a breadth-first enumeration sum to
the number of enumerated nodes minus the initial queue size. -/
theorem bfsL_sum_amounts : ∀ q : List Leaf,
    ((bfsL q).map Leaf.childAmount).sum + q.length = szF q := by
  intro q
  induction q using bfsL.induct with
  | case1 => simp
  | case2 l q ih =>
    rw [bfsL_cons, List.map_cons, List.sum_cons]
    simp only [List.length_append, List.length_cons, szF_append, szF_cons]
      at ih ⊢
    have hsz := sz_eq l
    have hca : l.childAmount = l.children.length := rfl
    omega

theorem treeRecords_length (t : Leaf) : (treeRecords t).length = sz t := by
  rw [treeRecords, List.length_map, bfsL_length]
  simp [szF]

theorem treeRecords_getElem (t : Leaf) (m : Nat) :
    (treeRecords t)[m]? = ((bfsL [t])[m]?).map fun l => (l.childAmount, l.value) := by
  rw [treeRecords, List.getElem?_map]

theorem treeRecords_cnt (t : Leaf) (m : Nat) (hm : m < (bfsL [t]).length) :
    cntR (treeRecords t) m = ((bfsL [t]).get ⟨m, hm⟩).childAmount := by
  rw [cntR, treeRecords_getElem, List.getElem?_eq_getElem hm]
  rfl

theorem treeRecords_val (t : Leaf) (m : Nat) (hm : m < (bfsL [t]).length) :
    valR (treeRecords t) m = ((bfsL [t]).get ⟨m, hm⟩).value := by
  rw [valR, treeRecords_getElem, List.getElem?_eq_getElem hm]
  rfl

/-- Completeness of the breadth-first record sequence: while records remain,
the number of requests announced so far strictly exceeds the number of
records consumed — the decoder's queue never runs dry early. -/
theorem treeRecords_comp (t : Leaf) (m : Nat) (hm : m < sz t) :
    m < offR (treeRecords t) m := by
  have hm' : m < (bfsL [t]).length := by rw [bfsL_length]; simpa [szF] using hm
  have h := bfsL_prefix_gt [t] m hm'
  rw [offR, treeRecords, ← List.map_take, List.map_map]
  simpa using h

/-- Exactness: over the whole record sequence the announced children are
exactly the non-root nodes, so the queue empties precisely at the end. -/
theorem treeRecords_end (t : Leaf) : offR (treeRecords t) (sz t) = sz t := by
  have hlen : (treeRecords t).length = sz t := treeRecords_length t
  have h := bfsL_sum_amounts [t]
  rw [offR, List.take_of_length_le (by omega), treeRecords, List.map_map]
  simp only [szF, List.map_cons, List.map_nil, List.sum_cons, List.sum_nil,
    List.length_singleton] at h ⊢
  have hc : (Prod.fst ∘ fun l : Leaf => ((l.childAmount, l.value) : Nat × Int))
      = Leaf.childAmount := rfl
  rw [hc]
  omega

/-! Step 4 — the decoder's request stream.  Request number 0 is the root
request; record `j` then announces `cntR R j` child requests, so requests
number `offR R j ≤ k < offR R (j+1)` carry `⟨some j, k - offR R j⟩`. -/

theorem cntR_eq_zero' (R : List (Nat × Int)) (m : Nat) (hm : R.length ≤ m) :
    cntR R m = 0 := by
  rw [cntR, List.getElem?_eq_none hm]
  rfl

theorem offR_succ' (R : List (Nat × Int)) (m : Nat) :
    offR R (m + 1) = offR R m + cntR R m := by
  rcases Nat.lt_or_ge m R.length with hm | hm
  · exact offR_succ R m hm
  · rw [cntR_eq_zero' R m hm, offR, offR, List.take_of_length_le (by omega),
      List.take_of_length_le (by omega)]
    omega

/-- All requests the decoder enqueues while processing the first `m`
records, in order: the root request, then one block per record. -/
def reqsUpTo (R : List (Nat × Int)) (m : Nat) : List GenReq :=
  ⟨none, 0⟩ :: ((List.range m).flatMap fun j =>
    (List.range (cntR R j)).map fun c => ⟨some j, c⟩)

theorem reqsUpTo_succ (R : List (Nat × Int)) (m : Nat) :
    reqsUpTo R (m + 1) = reqsUpTo R m ++
      ((List.range (cntR R m)).map fun c => (⟨some m, c⟩ : GenReq)) := by
  rw [reqsUpTo, reqsUpTo, List.range_succ, List.flatMap_append]
  simp

theorem reqsUpTo_length (R : List (Nat × Int)) (m : Nat) :
    (reqsUpTo R m).length = offR R m := by
  induction m with
  | zero => rw [offR_zero]; rfl
  | succ m ih =>
    rw [reqsUpTo_succ, List.length_append, ih, offR_succ']
    simp

theorem reqsUpTo_zero_get (R : List (Nat × Int)) :
    (reqsUpTo R 0)[0]? = some ⟨none, 0⟩ := rfl

theorem reqsUpTo_getElem_block (R : List (Nat × Int)) (p c : Nat)
    (hc : c < cntR R p) : ∀ m, p < m →
    (reqsUpTo R m)[offR R p + c]? = some ⟨some p, c⟩ := by
  intro m
  induction m with
  | zero => omega
  | succ m ih =>
    intro hpm
    rcases Nat.lt_or_ge p m with hpm' | hpm'
    · have hlt : offR R p + c < (reqsUpTo R m).length := by
        rw [reqsUpTo_length]
        have h1 := offR_succ' R p
        have h2 : offR R (p + 1) ≤ offR R m := offR_mono R hpm'
        omega
      rw [reqsUpTo_succ, List.getElem?_append_left hlt, ih hpm']
    · have hpm2 : p = m := by omega
      subst hpm2
      have hge : (reqsUpTo R p).length ≤ offR R p + c := by
        rw [reqsUpTo_length]; omega
      rw [reqsUpTo_succ, List.getElem?_append_right hge, reqsUpTo_length]
      have hidx : offR R p + c - offR R p = c := by omega
      rw [hidx, List.getElem?_map, List.getElem?_range hc]
      rfl

/-- Every request index `1 ≤ m` still inside a complete record stream falls
inside exactly one record's block: the parent of the node the decoder builds
at step `m`. -/
theorem exists_parent (R : List (Nat × Int))
    (Hcomp : ∀ k, k < R.length → k < offR R k) (m : Nat)
    (h1 : 1 ≤ m) (hm : m < R.length) :
    ∃ p c, p < m ∧ c < cntR R p ∧ m = offR R p + c := by
  classical
  let P : Nat → Prop := fun j => offR R j ≤ m
  have hP0 : P 0 := by show offR R 0 ≤ m; rw [offR_zero]; omega
  have hPp : P (Nat.findGreatest P m) :=
    Nat.findGreatest_spec (Nat.zero_le m) hP0
  have hPp' : offR R (Nat.findGreatest P m) ≤ m := hPp
  have hple : Nat.findGreatest P m ≤ m := Nat.findGreatest_le m
  have hpne : Nat.findGreatest P m ≠ m := by
    intro h
    rw [h] at hPp'
    have h3 := Hcomp m hm
    omega
  have hnot : ¬ P (Nat.findGreatest P m + 1) :=
    Nat.findGreatest_is_greatest (Nat.lt_succ_self _) (by omega)
  have hnot' : m < offR R (Nat.findGreatest P m + 1) := by
    have h4 : ¬ offR R (Nat.findGreatest P m + 1) ≤ m := hnot
    omega
  have hs := offR_succ' R (Nat.findGreatest P m)
  exact ⟨Nat.findGreatest P m, m - offR R (Nat.findGreatest P m),
    by omega, by omega, by omega⟩

/-! Step 5 — the closed form of the decoder's heap after `m` steps. -/

/-- How many of node `j`'s children have been attached after `m` decode
steps: its announced requests occupy indices `[offR R j, offR R (j+1))` and
request `k` is processed at step `k`. -/
def attCnt (R : List (Nat × Int)) (m j : Nat) : Nat :=
  min m (offR R (j + 1)) - min m (offR R j)

/-- The slot writes node `j` has received after `m` decode steps: slot `c`
is wired to the node allocated at step `offR R j + c`. -/
def attWrites (R : List (Nat × Int)) (m j : Nat) : List (Nat × Nat) :=
  (List.range (attCnt R m j)).map fun c => (c, offR R j + c)

theorem attCnt_new (R : List (Nat × Int)) (m : Nat) (h : m < offR R m) :
    attCnt R (m + 1) m = 0 := by
  have h2 := offR_le_succ R m
  rw [attCnt]
  omega

theorem attCnt_skip (R : List (Nat × Int)) (m p j : Nat)
    (hle : offR R p ≤ m) (hlt : m < offR R (p + 1)) (hj : j ≠ p) :
    attCnt R (m + 1) j = attCnt R m j := by
  rcases Nat.lt_or_ge j p with hjp | hjp
  · have h1 : offR R (j + 1) ≤ offR R p := offR_mono R (by omega)
    have h2 : offR R j ≤ offR R (j + 1) := offR_le_succ R j
    rw [attCnt, attCnt]
    omega
  · have hjp2 : p + 1 ≤ j := by omega
    have h1 : offR R (p + 1) ≤ offR R j := offR_mono R hjp2
    have h2 : offR R j ≤ offR R (j + 1) := offR_le_succ R j
    rw [attCnt, attCnt]
    omega

theorem attCnt_parent (R : List (Nat × Int)) (m p : Nat)
    (hle : offR R p ≤ m) (hlt : m < offR R (p + 1)) :
    attCnt R m p = m - offR R p ∧
      attCnt R (m + 1) p = (m - offR R p) + 1 := by
  rw [attCnt, attCnt]
  omega

theorem attWrites_parent (R : List (Nat × Int)) (m p : Nat)
    (hle : offR R p ≤ m) (hlt : m < offR R (p + 1)) :
    attWrites R (m + 1) p = attWrites R m p ++ [(m - offR R p, m)] := by
  obtain ⟨h1, h2⟩ := attCnt_parent R m p hle hlt
  rw [attWrites, attWrites, h1, h2, List.range_succ, List.map_append]
  simp
  omega

/-- The decode invariant: after `m` steps the heap holds the first `m`
records' nodes (in allocation = record order), the root variable points at
node 0 once it exists, the queue holds exactly the still-pending requests
`m, …, offR R m - 1`, and each allocated node carries its record's value,
its attached-so-far child count and its slot writes in slot order.  (Depth
and child index are not constrained here; claim C7 covers them.) -/
def dInv (R : List (Nat × Int)) (m : Nat) (s : DState) : Prop :=
  s.heap.length = m ∧
  s.root = (if m = 0 then none else some 0) ∧
  s.queue = (reqsUpTo R m).drop m ∧
  ∀ j, j < m → ∃ d ci, s.heap[j]? =
    some ⟨valR R j, d, ci, attCnt R m j, attWrites R m j⟩

theorem dInv_init (R : List (Nat × Int)) : dInv R 0 dInit := by
  refine ⟨rfl, rfl, rfl, ?_⟩
  intro j hj
  omega

theorem dstep_dInv (R : List (Nat × Int)) (vp : String → Int) (m : Nat)
    (hm : m < R.length)
    (Hcomp : ∀ k, k < R.length → k < offR R k)
    (hvals : ∀ r ∈ R, vp (toString r.1) = (r.1 : Int) ∧
      vp (toString r.2) = r.2 ∧ r.1 < 65536)
    (s : DState) (hs : dInv R m s) :
    dInv R (m + 1) (dstep vp s (recLine (R.get ⟨m, hm⟩))) := by
  obtain ⟨hlen, hroot, hqueue, hheap⟩ := hs
  have hRm : R[m]? = some (R.get ⟨m, hm⟩) := by
    rw [List.getElem?_eq_getElem hm]
    rfl
  have hcm : cntR R m = (R.get ⟨m, hm⟩).1 := by rw [cntR, hRm]; rfl
  have hvm : valR R m = (R.get ⟨m, hm⟩).2 := by rw [valR, hRm]; rfl
  have hrmem := hvals (R.get ⟨m, hm⟩) (R.get_mem m hm)
  have hsplit : splitLine (recLine (R.get ⟨m, hm⟩)) =
      some (toString (R.get ⟨m, hm⟩).1, toString (R.get ⟨m, hm⟩).2) := by
    rw [recLine]
    exact splitLine_record _ _ (natToString_no_colon _)
  have hcnt : u16ofInt (vp (toString (R.get ⟨m, hm⟩).1)) = cntR R m := by
    rw [hrmem.1, u16ofInt_coe _ hrmem.2.2, hcm]
  have hval : vp (toString (R.get ⟨m, hm⟩).2) = valR R m := by
    rw [hrmem.2.1, hvm]
  have hmo : m < offR R m := Hcomp m hm
  have hql : (reqsUpTo R m).length = offR R m := reqsUpTo_length R m
  have hqcons : s.queue =
      (reqsUpTo R m).get ⟨m, by omega⟩ :: (reqsUpTo R m).drop (m + 1) := by
    rw [hqueue]
    exact List.drop_eq_getElem_cons (by omega)
  rcases Nat.eq_zero_or_pos m with hm0 | hmpos
  · subst hm0
    have hheap0 : s.heap = [] := List.length_eq_zero.mp hlen
    have hroot0 : s.root = none := hroot
    rw [dstep_process vp s _ ⟨none, 0⟩ [] _ _ (by rw [hqcons]; rfl) hsplit]
    refine ⟨?_, ?_, ?_, ?_⟩
    · rw [createNode_length, hlen]
    · rw [createNode_root_root s.heap s.root _ _ rfl, hlen]
      rfl
    · show List.nil ++ _ = _
      rw [List.nil_append, hcnt, hlen, reqsUpTo_succ]
      rfl
    · intro j hj
      have hj0 : j = 0 := by omega
      subst hj0
      refine ⟨0, 0, ?_⟩
      rw [createNode_root_heap s.heap s.root _ _ rfl 0, if_pos hlen.symm, hval]
      have hac : attCnt R 1 0 = 0 := attCnt_new R 0 (by rw [offR_zero]; omega)
      rw [hac, attWrites, hac]
      rfl
  · obtain ⟨p, c, hpm, hc, hmeq⟩ := exists_parent R Hcomp m hmpos hm
    have hfront : (reqsUpTo R m)[m]? = some ⟨some p, c⟩ := by
      have hb := reqsUpTo_getElem_block R p c hc m hpm
      rw [← hmeq] at hb
      exact hb
    have hgm : (reqsUpTo R m)[m]? =
        some ((reqsUpTo R m).get ⟨m, by omega⟩) := by
      rw [List.getElem?_eq_getElem (by omega : m < (reqsUpTo R m).length)]
      rfl
    rw [hgm] at hfront
    have hfront' := Option.some.inj hfront
    have hple : offR R p ≤ m := by omega
    have hplt : m < offR R (p + 1) := by
      have hs2 := offR_succ' R p
      omega
    have hRp : R[p]? = some (R.get ⟨p, by omega⟩) := by
      rw [List.getElem?_eq_getElem (by omega : p < R.length)]
      rfl
    have hcp : cntR R p = (R.get ⟨p, by omega⟩).1 := by rw [cntR, hRp]; rfl
    have hcp16 : cntR R p < 65536 := by
      rw [hcp]
      exact (hvals _ (R.get_mem p (by omega))).2.2
    rw [dstep_process vp s _ ⟨some p, c⟩ ((reqsUpTo R m).drop (m + 1)) _ _
      (by rw [hqcons, hfront']) hsplit]
    have hchar := createNode_child_heap s.heap s.root ⟨some p, c⟩
      (vp (toString (R.get ⟨m, hm⟩).2)) p rfl (by omega)
    rw [hlen] at hchar
    refine ⟨?_, ?_, ?_, ?_⟩
    · rw [createNode_length, hlen]
    · rw [createNode_child_root s.heap s.root _ _ p rfl, hroot]
      simp only [if_neg (by omega : ¬ m = 0), if_neg (by omega : ¬ m + 1 = 0)]
    · show (reqsUpTo R m).drop (m + 1) ++ _ = _
      rw [hcnt, hlen, reqsUpTo_succ, List.drop_append_of_le_length (by omega)]
    · intro j hj
      by_cases hjp : j = p
      · subst hjp
        obtain ⟨d, ci, hold⟩ := hheap j hpm
        refine ⟨d, ci, ?_⟩
        rw [hchar j, if_pos rfl, hold]
        have hw := attWrites_parent R m j hple hplt
        have hmc : m - offR R j = c := by omega
        rw [hmc] at hw
        obtain ⟨ha1, ha2⟩ := attCnt_parent R m j hple hplt
        rw [hmc] at ha1 ha2
        simp only [Option.map_some', parentUpd, hw, ha2, ha1]
        have hu : u16 (c + 1) = c + 1 := by
          rw [u16]
          omega
        rw [hu]
      · by_cases hjm : j = m
        · subst hjm
          refine ⟨u16 (((s.heap[p]?).map HNode.depth).getD 0 + 1), c, ?_⟩
          rw [hchar j, if_neg hjp, if_pos rfl, hval]
          have hac : attCnt R (j + 1) j = 0 := attCnt_new R j hmo
          rw [hac, attWrites, hac]
          rfl
        · have hjm' : j < m := by omega
          obtain ⟨d, ci, hold⟩ := hheap j hjm'
          refine ⟨d, ci, ?_⟩
          rw [hchar j, if_neg hjp, if_neg hjm, hold]
          have hac := attCnt_skip R m p j hple hplt hjp
          have haw : attWrites R (m + 1) j = attWrites R m j := by
            rw [attWrites, attWrites, hac]
          rw [hac, haw]

theorem deserialize_dInv (R : List (Nat × Int)) (vp : String → Int)
    (Hcomp : ∀ k, k < R.length → k < offR R k)
    (hvals : ∀ r ∈ R, vp (toString r.1) = (r.1 : Int) ∧
      vp (toString r.2) = r.2 ∧ r.1 < 65536) :
    ∀ (k m : Nat), m + k = R.length → ∀ s, dInv R m s →
      dInv R R.length (deserialize vp ((R.drop m).map recLine) s) := by
  intro k
  induction k with
  | zero =>
    intro m hmk s hs
    have hm : m = R.length := by omega
    subst hm
    rw [List.drop_length]
    exact hs
  | succ k ih =>
    intro m hmk s hs
    have hm : m < R.length := by omega
    have hdrop : R.drop m = R.get ⟨m, hm⟩ :: R.drop (m + 1) :=
      List.drop_eq_getElem_cons hm
    rw [hdrop, List.map_cons, deserialize]
    have hne : ¬ s.queue.isEmpty := by
      obtain ⟨_, _, hq, _⟩ := hs
      rw [hq, List.isEmpty_iff, List.drop_eq_nil_iff, reqsUpTo_length]
      have := Hcomp m hm
      omega
    rw [if_neg hne]
    exact ih (m + 1) (by omega) _ (dstep_dInv R vp m hm Hcomp hvals s hs)

/-! Step 6 — breadth-first traversal of the decoded heap.  `Walk` on the
decoded tree reads slots `0 … mChildrenAmount - 1` in order; in the decoded
heap those are exactly the recorded slot writes in slot order, so the child
id list of node `i` is `childWrites.map Prod.snd`. -/

def hbfs (H : List HNode) : Nat → List Nat → List Nat
  | 0, _ => []
  | _ + 1, [] => []
  | fuel + 1, i :: q =>
    i :: hbfs H fuel
      (q ++ (((H[i]?).map fun nd => nd.childWrites.map Prod.snd).getD []))

theorem hbfs_cons (H : List HNode) (fuel : Nat) (i : Nat) (q : List Nat) :
    hbfs H (fuel + 1) (i :: q) = i :: hbfs H fuel
      (q ++ (((H[i]?).map fun nd => nd.childWrites.map Prod.snd).getD [])) :=
  rfl

theorem hbfs_run (R : List (Nat × Int)) (H : List HNode) (n : Nat)
    (Hcomp : ∀ k, k < n → k < offR R k)
    (Hstruct : ∀ j, j < n →
      ((H[j]?).map fun nd => nd.childWrites.map Prod.snd).getD [] =
        (List.range (cntR R j)).map fun c => offR R j + c) :
    ∀ (k m : Nat), m + k ≤ n →
      hbfs H k (List.range' m (offR R m - m)) = List.range' m k := by
  intro k
  induction k with
  | zero => intro m hm; rfl
  | succ k ih =>
    intro m hmk
    have hm : m < n := by omega
    have hmo := Hcomp m hm
    obtain ⟨a, ha⟩ : ∃ a, offR R m - m = a + 1 := ⟨offR R m - m - 1, by omega⟩
    rw [ha, List.range'_succ, hbfs_cons, Hstruct m hm]
    have hcr : ((List.range (cntR R m)).map fun c => offR R m + c) =
        List.range' (offR R m) (cntR R m) := by
      rw [List.range'_eq_map_range]
    have h1 : offR R m = (m + 1) + a := by omega
    have happ := List.range'_append_1 (m + 1) a (cntR R m)
    rw [← h1] at happ
    have h2 : cntR R m + a = offR R (m + 1) - (m + 1) := by
      have hs2 := offR_succ' R m
      omega
    rw [h2] at happ
    rw [hcr, happ, ih (m + 1) (by omega)]
    rw [List.range'_succ]

theorem attCnt_full (R : List (Nat × Int)) (Hend : offR R R.length = R.length)
    (j : Nat) (hj : j < R.length) : attCnt R R.length j = cntR R j := by
  have h1 : offR R (j + 1) ≤ offR R R.length := offR_mono R (by omega)
  have h2 : offR R j ≤ offR R (j + 1) := offR_le_succ R j
  have h3 := offR_succ' R j
  rw [attCnt]
  omega

/-- The decoded structure's breadth-first `(childCount, value)` record
sequence: walk the heap from the root variable, reading each visited node's
child slots in order, and record each node's counter and value. -/
def heapRecords (s : DState) : List (Nat × Int) :=
  match s.root with
  | none => []
  | some r =>
    (hbfs s.heap s.heap.length [r]).map fun i =>
      ((s.heap[i]?).map fun nd => (nd.childrenAmount, nd.value)).getD (0, 0)

/-- **C1** — Round-trip: for every tree whose per-node child counts fit the
`N = 5` capacity (and whose depths fit `uint16_t`, as they always do in the
C++), decoding the output of `Serialize` with the depth limit left at its
unbounded default and pretty disabled — with a value deserializer that
parses back the printed child counts and values — yields a structure with
the same node count and the same per-node `(childCount, value)` sequence in
breadth-first order. -/
theorem roundtrip (t : Leaf) (vp : String → Int)
    (hcap : ∀ l ∈ subNodes t, l.childAmount ≤ NCap)
    (hdep : ∀ l ∈ subNodes t, l.depth ≤ 65535)
    (hvp : ∀ l ∈ subNodes t,
      vp (toString l.childAmount) = (l.childAmount : Int) ∧
      vp (toString l.value) = l.value) :
    (deserializeStart vp (serialize t unboundedDepth false)).heap.length =
      sz t ∧
    heapRecords (deserializeStart vp (serialize t unboundedDepth false)) =
      treeRecords t := by
  have hser : serialize t unboundedDepth false =
      (treeRecords t).map recLine := serialize_unbounded_recs t hdep
  have hRlen : (treeRecords t).length = sz t := treeRecords_length t
  have Hcomp : ∀ k, k < (treeRecords t).length →
      k < offR (treeRecords t) k := by
    intro k hk
    exact treeRecords_comp t k (by omega)
  have Hend : offR (treeRecords t) (treeRecords t).length =
      (treeRecords t).length := by
    rw [hRlen]
    exact treeRecords_end t
  have hvals : ∀ r ∈ treeRecords t,
      vp (toString r.1) = (r.1 : Int) ∧ vp (toString r.2) = r.2 ∧
        r.1 < 65536 := by
    intro r hr
    obtain ⟨l, hl, hrl⟩ := List.mem_map.mp hr
    have hmem : l ∈ subNodes t := by
      have := (bfsL_perm [t]).mem_iff.mp hl
      simpa using this
    subst hrl
    refine ⟨(hvp l hmem).1, (hvp l hmem).2, ?_⟩
    have := hcap l hmem
    rw [NCap] at this
    omega
  have hfin : dInv (treeRecords t) (treeRecords t).length
      (deserializeStart vp (serialize t unboundedDepth false)) := by
    rw [hser, deserializeStart]
    have h0 : (treeRecords t).map recLine =
        ((treeRecords t).drop 0).map recLine := rfl
    rw [h0]
    exact deserialize_dInv (treeRecords t) vp Hcomp hvals
      (treeRecords t).length 0 (by omega) dInit (dInv_init (treeRecords t))
  obtain ⟨hlen, hroot, hqueue, hheap⟩ := hfin
  have hpos : 1 ≤ sz t := by
    rw [sz_eq]
    omega
  have hrlen0 : (treeRecords t).length ≠ 0 := by omega
  constructor
  · rw [hlen, hRlen]
  · rw [heapRecords]
    rw [hroot, if_neg hrlen0]
    have Hstruct : ∀ j, j < (treeRecords t).length →
        (((deserializeStart vp (serialize t unboundedDepth
            false)).heap[j]?).map fun nd =>
          nd.childWrites.map Prod.snd).getD [] =
        (List.range (cntR (treeRecords t) j)).map
          fun c => offR (treeRecords t) j + c := by
      intro j hj
      obtain ⟨d, ci, hj2⟩ := hheap j hj
      rw [hj2]
      show (attWrites (treeRecords t) (treeRecords t).length j).map
        Prod.snd = _
      rw [attWrites, attCnt_full (treeRecords t) Hend j hj, List.map_map]
      rfl
    have hrun := hbfs_run (treeRecords t)
      (deserializeStart vp (serialize t unboundedDepth false)).heap
      (treeRecords t).length Hcomp Hstruct (treeRecords t).length 0
      (by omega)
    rw [offR_zero] at hrun
    have hr01 : List.range' 0 (1 - 0) = [0] := rfl
    rw [hr01] at hrun
    dsimp only
    rw [hlen, hrun, ← List.range_eq_range']
    apply List.ext_getElem
    · simp [hRlen]
    · intro i h1 h2
      rw [List.getElem_map, List.getElem_range]
      have hi : i < (treeRecords t).length := by
        simp at h1
        omega
      obtain ⟨d, ci, hi2⟩ := hheap i hi
      rw [hi2]
      show ((attCnt (treeRecords t) (treeRecords t).length i : Nat),
        valR (treeRecords t) i) = _
      rw [attCnt_full (treeRecords t) Hend i hi]
      rw [cntR, valR, List.getElem?_eq_getElem hi]
      rfl

theorem roundtrip_witness :
    ((∀ l ∈ subNodes chainT, l.childAmount ≤ NCap) ∧
     (∀ l ∈ subNodes chainT, l.depth ≤ 65535) ∧
     (∀ l ∈ subNodes chainT,
       parseIntS (toString l.childAmount) = (l.childAmount : Int) ∧
       parseIntS (toString l.value) = l.value)) ∧
    ((deserializeStart parseIntS
        (serialize chainT unboundedDepth false)).heap.length = sz chainT ∧
     heapRecords (deserializeStart parseIntS
        (serialize chainT unboundedDepth false)) = treeRecords chainT) := by
  have h1 : ∀ l ∈ subNodes chainT, l.childAmount ≤ NCap := by
    intro l hl
    simp only [chainT, subNodes_def, List.map_cons, List.map_nil,
      List.flatten, List.mem_cons, List.mem_singleton, List.append_nil,
      List.nil_append, List.not_mem_nil, or_false] at hl
    rcases hl with h | h | h <;> subst h <;> decide
  have h2 : ∀ l ∈ subNodes chainT, l.depth ≤ 65535 := by
    intro l hl
    simp only [chainT, subNodes_def, List.map_cons, List.map_nil,
      List.flatten, List.mem_cons, List.mem_singleton, List.append_nil,
      List.nil_append, List.not_mem_nil, or_false] at hl
    rcases hl with h | h | h <;> subst h <;> decide
  have h3 : ∀ l ∈ subNodes chainT,
      parseIntS (toString l.childAmount) = (l.childAmount : Int) ∧
      parseIntS (toString l.value) = l.value := by
    intro l hl
    simp only [chainT, subNodes_def, List.map_cons, List.map_nil,
      List.flatten, List.mem_cons, List.mem_singleton, List.append_nil,
      List.nil_append, List.not_mem_nil, or_false] at hl
    rcases hl with h | h | h <;> subst h <;> constructor <;> decide
  exact ⟨⟨h1, h2, h3⟩, roundtrip chainT parseIntS h1 h2 h3⟩

/-! Step 8 — the `uint16_t` wrap of the depth field.  The stream
`"1:0", "1:0", …` decodes to a single chain; node `j` sits at distance `j`
from the root, and `SetNChild` stores its depth as `mDepth = parent + 1` in
a `uint16_t`, i.e. `u16 j`.  At 65537 nodes the field wraps to 0. -/

/-- Node `j` of the chain the uniform stream builds when `k` records have
been decoded: value 0, wrapped depth `u16 j`, slot 0, and one child
`(0, j+1)` for every node that has already received it. -/
def chainNode (k j : Nat) : HNode :=
  ⟨0, u16 j, 0, if j + 1 < k then 1 else 0,
    if j + 1 < k then [(0, j + 1)] else []⟩

/-- The decoder's state after `k ≥ 1` lines `"1:0"`: a `k`-node chain, one
pending request for the last node's single announced child. -/
def chainState (k : Nat) : DState :=
  ⟨(List.range k).map (chainNode k), some 0, [⟨some (k - 1), 0⟩],
    (List.range k).map fun j => ⟨some j, 0⟩⟩

theorem chain_heap_get (k j : Nat) :
    ((List.range k).map (chainNode k))[j]? =
      if j < k then some (chainNode k j) else none := by
  by_cases hj : j < k
  · rw [List.getElem?_map, List.getElem?_range hj, if_pos hj]
    rfl
  · rw [List.getElem?_eq_none (by simp; omega), if_neg hj]

theorem chain_heap_step (k : Nat) (hk : 1 ≤ k) :
    (createNode ((List.range k).map (chainNode k)) (some 0)
        ⟨some (k - 1), 0⟩ 0).1 =
      (List.range (k + 1)).map (chainNode (k + 1)) := by
  apply List.ext_getElem?
  intro j
  have hp : k - 1 < ((List.range k).map (chainNode k)).length := by
    simp
    omega
  rw [createNode_child_heap _ (some 0) ⟨some (k - 1), 0⟩ 0 (k - 1) rfl hp j]
  simp only [List.length_map, List.length_range]
  rw [chain_heap_get k j, chain_heap_get (k + 1) j]
  by_cases hj1 : j = k - 1
  · have h3 : j < k := by omega
    have h3' : j < k + 1 := by omega
    have h4 : ¬ (j + 1 < k) := by omega
    have h5 : j + 1 < k + 1 := by omega
    have hjk : j + 1 = k := by omega
    simp only [if_pos hj1, if_pos h3, if_pos h3', chainNode, if_neg h4,
      if_pos h5, parentUpd, Option.map_some', List.nil_append]
    rw [hjk]
    have h1 : u16 (0 + 1) = 1 := by decide
    rw [h1]
  · rw [if_neg hj1]
    by_cases hj2 : j = k
    · have h3' : j < k + 1 := by omega
      have h6 : k - 1 < k := by omega
      rw [if_pos hj2, if_pos h3', chain_heap_get k (k - 1), if_pos h6]
      show some (⟨0, u16 ((chainNode k (k - 1)).depth + 1), 0, 0, []⟩ :
        HNode) = some (chainNode (k + 1) j)
      rw [hj2]
      show some (⟨0, u16 (u16 (k - 1) + 1), 0, 0, []⟩ : HNode) = _
      have h7 : ¬ (k + 1 < k + 1) := by omega
      rw [chainNode, if_neg h7, if_neg h7]
      have hdep : u16 (u16 (k - 1) + 1) = u16 k := by
        rw [u16, u16, u16, Nat.mod_add_mod]
        have h2 : k - 1 + 1 = k := by omega
        rw [h2]
      rw [hdep]
    · rw [if_neg hj2]
      by_cases hj3 : j < k
      · have h3' : j < k + 1 := by omega
        have h4 : j + 1 < k := by omega
        have h5 : j + 1 < k + 1 := by omega
        simp only [if_pos hj3, if_pos h3', chainNode, if_pos h4, if_pos h5]
      · rw [if_neg hj3, if_neg (show ¬ j < k + 1 by omega)]

theorem dstep_chain (k : Nat) (hk : 1 ≤ k) :
    dstep parseIntS (chainState k) "1:0" = chainState (k + 1) := by
  have hsp : splitLine "1:0" = some ("1", "0") := by decide
  rw [dstep_process parseIntS (chainState k) "1:0" ⟨some (k - 1), 0⟩ []
    "1" "0" rfl hsp]
  have hcnt : u16ofInt (parseIntS "1") = 1 := by decide
  have hval : parseIntS "0" = 0 := by decide
  have hlen : (chainState k).heap.length = k := by
    show ((List.range k).map (chainNode k)).length = k
    simp
  rw [hcnt, hval, hlen]
  have hnr : (List.range 1).map (fun c => (⟨some k, c⟩ : GenReq)) =
      [⟨some k, 0⟩] := rfl
  rw [hnr, chainState, chainState]
  simp only [DState.mk.injEq]
  refine ⟨?_, ?_, ?_, ?_⟩
  · exact chain_heap_step k hk
  · exact createNode_child_root _ _ _ _ (k - 1) rfl
  · rw [List.nil_append]
    have h2 : k + 1 - 1 = k := by omega
    rw [h2]
  · rw [List.range_succ, List.map_append]
    rfl

theorem chain_steps : ∀ (r k : Nat), 1 ≤ k →
    deserialize parseIntS (List.replicate r "1:0") (chainState k) =
      chainState (k + r) := by
  intro r
  induction r with
  | zero => intro k hk; rfl
  | succ r ih =>
    intro k hk
    rw [List.replicate_succ, deserialize]
    have hne : ¬ (chainState k).queue.isEmpty := by
      show ¬ ([(⟨some (k - 1), 0⟩ : GenReq)]).isEmpty
      simp
    rw [if_neg hne, dstep_chain k hk, ih (k + 1) (by omega)]
    congr 1
    omega

theorem decode_uniform (r : Nat) :
    deserializeStart parseIntS (List.replicate (r + 1) "1:0") =
      chainState (1 + r) := by
  rw [deserializeStart, List.replicate_succ, deserialize]
  have hne : ¬ dInit.queue.isEmpty := by decide
  rw [if_neg hne]
  have h1 : dstep parseIntS dInit "1:0" = chainState 1 := by decide
  rw [h1, chain_steps r 1 (by omega)]

/-- **C7 counterexample** — the claim's unreduced "child depth = parent
depth + 1" fails on a decodable input: with the program's own value parser,
a 65537-record chain stream gives a node whose stored depth is 65535 while
its child's `uint16_t` depth field wraps to 0, not 65536. -/
theorem depth_invariant_counterexample :
    ∃ nd cn : HNode,
      (deserializeStart parseIntS
        (List.replicate 65537 "1:0")).heap[65535]? = some nd ∧
      (0, 65536) ∈ nd.childWrites ∧
      (deserializeStart parseIntS
        (List.replicate 65537 "1:0")).heap[65536]? = some cn ∧
      nd.depth = 65535 ∧ cn.depth = 0 ∧ cn.depth ≠ nd.depth + 1 := by
  have h := decode_uniform 65536
  norm_num at h
  rw [h]
  have hh : (chainState 65537).heap =
      (List.range 65537).map (chainNode 65537) := by
    rw [chainState]
  rw [hh]
  refine ⟨chainNode 65537 65535, chainNode 65537 65536, ?_, ?_, ?_, ?_, ?_, ?_⟩
  · rw [chain_heap_get 65537 65535, if_pos (by norm_num)]
  · show (0, 65536) ∈
      (if 65535 + 1 < 65537 then [(0, 65535 + 1)] else [])
    rw [if_pos (by norm_num)]
    norm_num
  · rw [chain_heap_get 65537 65536, if_pos (by norm_num)]
  · show u16 65535 = 65535
    rw [u16]
  · show u16 65536 = 0
    rw [u16]
  · show u16 65536 ≠ u16 65535 + 1
    rw [u16, u16]
    norm_num
